import Mathlib

/-!
Verification of the core SAT-encoding layer of the camera methyl-assignment
engine (`src/camera/sat.py`, `src/camera/network.py`, `src/camera/noes.py`).

The Python code is shallowly embedded: formula construction threads an
explicit state (`St`) mirroring the mutable `Formula` object; dictionaries
keyed by `Signature`/`Methyl`/`Noe` objects (which compare by `label`) become
association lists keyed by the label strings; floats become rationals.
-/

namespace Camera

/-- Methyl (structures.py).  Python identity is by `label`; the label is
carried as a field here and all tables are keyed by it. -/
structure Methyl where
  label : String
  color : String
  seqid : Int
  order : Option Nat
  added : Bool
deriving DecidableEq

/-- `Methyl.geminal` from structures.py: same seqid, different order. -/
def Methyl.geminal (m other : Methyl) : Bool :=
  m.seqid == other.seqid && m.order != other.order

/-- Signature (hmqc.py).  `geminal` is the back-pointer, stored as the label
of the partner signature (Python stores the object; equality is by label). -/
structure Sig where
  label : String
  color : List String
  asg : List Methyl
  options : List Methyl
  geminal : Option String
deriving DecidableEq

/-- `Signature.is_geminal` from hmqc.py: `self.geminal == other` (Signature
equality is label equality; an unset back-pointer `[]` equals no signature). -/
def Sig.is_geminal (s other : Sig) : Bool :=
  s.geminal == some other.label

/-- NOE node data used by the SAT layer (noes.py).  `clusters` holds the
labels of the signatures the NOE may be clustered to.  `short_range` is the
attribute read by sat.py line 557 (see claim C7 for its initialisation). -/
structure Noe where
  label : String
  short_range : Bool
  clusters : List String
deriving DecidableEq

/-- Tunable parameters (params.py).  Distances are modelled as rationals. -/
structure CParams where
  RADIUS : ℚ
  ADDED_RADIUS : ℚ
  SHORT_RADIUS : ℚ
  FORCE_ASG : Bool
  FORCE_SV : Bool

/-- Default values from params.py. -/
def defaultParams : CParams :=
  { RADIUS := 10, ADDED_RADIUS := 10, SHORT_RADIUS := 10,
    FORCE_ASG := false, FORCE_SV := false }

/-- Semantics of a boolean variable (the `variable_meaning` table of
`Formula.__init__`), a tagged tuple of the participating object labels. -/
inductive VarMeaning where
  | asgv (sig : String) (methyl : String)
  | cstv (noe : String) (sig : String)
  | actv (i : String) (j : String)
  | cmdv
  | edgv (i : String) (j : String) (mi : String) (mj : String)
deriving DecidableEq

/-- The mutable state of a `Formula` object (sat.py `Formula.__init__`). -/
structure St where
  nvars : Nat
  nclauses : Nat
  base_clauses : List (List Int)
  aux_clauses : List (List Int)
  variable_meaning : List (Nat × VarMeaning)
deriving DecidableEq

/-- A fresh, empty formula (`Formula.__init__`). -/
def St.empty : St :=
  { nvars := 0, nclauses := 0, base_clauses := [], aux_clauses := [],
    variable_meaning := [] }

/-- `Formula.add_clause`. -/
def add_clause (lits : List Int) (st : St) : St :=
  { st with nclauses := st.nclauses + 1,
            base_clauses := st.base_clauses ++ [lits] }

/-- `Formula.add_aux_clause`. -/
def add_aux_clause (lits : List Int) (st : St) : St :=
  { st with nclauses := st.nclauses + 1,
            aux_clauses := st.aux_clauses ++ [lits] }

/-- `Formula.flush`: drop every auxiliary clause. -/
def flush (st : St) : St :=
  { st with nclauses := st.nclauses - st.aux_clauses.length,
            aux_clauses := [] }

/-- `Formula.next_variable`: allocate the next variable id. -/
def next_variable (st : St) : Nat × St :=
  (st.nvars + 1, { st with nvars := st.nvars + 1 })

/-- Record the meaning of a freshly allocated variable. -/
def set_meaning (x : Nat) (mn : VarMeaning) (st : St) : St :=
  { st with variable_meaning := st.variable_meaning ++ [(x, mn)] }

/-! ### Clause semantics

A valuation assigns a boolean to every variable id.  A DIMACS literal is a
nonzero integer: positive for the variable, negative for its negation. -/

/-- Truth of one literal under a valuation. -/
def litHolds (v : Nat → Bool) (l : Int) : Bool :=
  if 0 < l then v l.toNat else !(v (-l).toNat)

/-- Truth of a clause (a disjunction of literals). -/
def clauseHolds (v : Nat → Bool) (c : List Int) : Bool :=
  c.any (litHolds v)

/-- A valuation satisfies a list of clauses. -/
def satList (v : Nat → Bool) (cs : List (List Int)) : Prop :=
  ∀ c ∈ cs, clauseHolds v c = true

instance (v : Nat → Bool) (cs : List (List Int)) : Decidable (satList v cs) :=
  inferInstanceAs (Decidable (∀ c ∈ cs, clauseHolds v c = true))

theorem satList_append (v : Nat → Bool) (cs ds : List (List Int)) :
    satList v (cs ++ ds) ↔ satList v cs ∧ satList v ds := by
  constructor
  · intro h
    exact ⟨fun c hc => h c (List.mem_append_left _ hc),
           fun c hc => h c (List.mem_append_right _ hc)⟩
  · rintro ⟨h1, h2⟩ c hc
    rcases List.mem_append.1 hc with hc | hc
    · exact h1 c hc
    · exact h2 c hc

theorem satList_of_sublist {v : Nat → Bool} {cs ds : List (List Int)}
    (h : List.Sublist cs ds) (hd : satList v ds) : satList v cs :=
  fun c hc => hd c (h.mem hc)

/-! ### `itertools.combinations(lits, 2)` -/

/-- All unordered position pairs of a list, in `itertools.combinations`
order. -/
def pairsOf : List α → List (α × α)
  | [] => []
  | x :: xs => xs.map (fun y => (x, y)) ++ pairsOf xs

theorem pairsOf_countP_le_one {p : α → Bool} {xs : List α}
    (h : ∀ q ∈ pairsOf xs, ¬(p q.1 = true ∧ p q.2 = true)) :
    xs.countP p ≤ 1 := by
  induction xs with
  | nil => simp
  | cons x xs ih =>
    rw [List.countP_cons]
    by_cases hx : p x = true
    · have hz : xs.countP p = 0 := by
        rw [List.countP_eq_zero]
        intro y hy
        intro hpy
        exact h (x, y) (by simp [pairsOf, hy]) ⟨hx, hpy⟩
      simp [hz, hx]
    · have : xs.countP p ≤ 1 := by
        apply ih
        intro q hq
        exact h q (by simp [pairsOf]; right; exact hq)
      simp [hx]
      omega

/-- `Formula.naive_at_most_one`: pairwise encoding. -/
def naive_at_most_one (lits : List Int) (st : St) : St :=
  (pairsOf lits).foldl (fun s q => add_clause [-q.1, -q.2] s) st

/-! ### `Formula.at_most_one`: commander encoding -/

/-- The partition of the literal list into groups of three
(`lits[idx:idx+3]` for `idx = 0, 3, 6, ...`). -/
def chunk3 : List Int → List (List Int)
  | [] => []
  | [a] => [[a]]
  | [a, b] => [[a, b]]
  | a :: b :: c :: rest => [a, b, c] :: chunk3 rest

theorem chunk3_length_lt {xs : List Int} (h : 2 ≤ xs.length) :
    (chunk3 xs).length < xs.length := by
  induction xs using chunk3.induct with
  | case1 => simp at h
  | case2 a => simp at h
  | case3 a b => simp [chunk3]
  | case4 a b c rest ih =>
    by_cases h2 : 2 ≤ rest.length
    · have := ih h2
      simp only [chunk3, List.length_cons]
      omega
    · rcases rest with _ | ⟨x, _ | ⟨y, t⟩⟩
      · simp [chunk3]
      · simp [chunk3]
      · exfalso
        simp at h2

theorem chunk3_flatten (xs : List Int) : (chunk3 xs).flatten = xs := by
  induction xs using chunk3.induct with
  | case1 => simp [chunk3]
  | case2 a => simp [chunk3]
  | case3 a b => simp [chunk3]
  | case4 a b c rest ih => simp [chunk3, ih]

/-- The body of the commander loop for one group of at most three literals:
allocate the commander, emit `(-c ∨ l1 ∨ l2 ∨ l3)` and `(c ∨ -l)` for each
`l`, then `at_most_one(group)` — which, the group having fewer than four
literals, is exactly `naive_at_most_one` (lemma `at_most_one_small`). -/
def amoGroup (g : List Int) (st : St) : St × Int :=
  let p := next_variable st
  let st1 := set_meaning p.1 VarMeaning.cmdv p.2
  let st2 := add_clause (-(p.1 : Int) :: g) st1
  let st3 := g.foldl (fun s l => add_clause [(p.1 : Int), -l] s) st2
  (naive_at_most_one g st3, (p.1 : Int))

/-- Process every group of the partition, returning the commander list. -/
def amoChunks : List (List Int) → St → St × List Int
  | [], st => (st, [])
  | g :: gs, st =>
    let r := amoGroup g st
    let r2 := amoChunks gs r.1
    (r2.1, r.2 :: r2.2)

theorem amoChunks_snd_length (gs : List (List Int)) (st : St) :
    (amoChunks gs st).2.length = gs.length := by
  induction gs generalizing st with
  | nil => simp [amoChunks]
  | cons g gs ih => simp [amoChunks, ih]

/-- Fuel-indexed implementation of the commander recursion; the commander
list always shrinks, so fuel `lits.length` never runs out
(`at_most_one_eq` recovers the natural recursion equation). -/
def at_most_one_fuel : Nat → List Int → St → St
  | 0, lits, st => naive_at_most_one lits st
  | fuel + 1, lits, st =>
    if lits.length < 4 then naive_at_most_one lits st
    else
      at_most_one_fuel fuel (amoChunks (chunk3 lits) st).2
        (amoChunks (chunk3 lits) st).1

/-- `Formula.at_most_one` (sat.py): commander encoding with groups of three;
fewer than four literals use the naive pairwise encoding. -/
def at_most_one (lits : List Int) (st : St) : St :=
  at_most_one_fuel lits.length lits st

theorem at_most_one_fuel_inv :
    ∀ (f1 f2 : Nat) (lits : List Int) (st : St), lits.length ≤ f1 →
    lits.length ≤ f2 → at_most_one_fuel f1 lits st = at_most_one_fuel f2 lits st := by
  intro f1
  induction f1 with
  | zero =>
    intro f2 lits st h1 h2
    have : lits = [] := List.eq_nil_of_length_eq_zero (by omega)
    subst this
    cases f2 with
    | zero => rfl
    | succ f => simp [at_most_one_fuel]
  | succ f ih =>
    intro f2 lits st h1 h2
    cases f2 with
    | zero =>
      have : lits = [] := List.eq_nil_of_length_eq_zero (by omega)
      subst this
      simp [at_most_one_fuel]
    | succ f2 =>
      simp only [at_most_one_fuel]
      by_cases hlen : lits.length < 4
      · simp [hlen]
      · simp only [hlen, if_false]
        have hlt : (amoChunks (chunk3 lits) st).2.length < lits.length := by
          rw [amoChunks_snd_length]
          exact chunk3_length_lt (by omega)
        exact ih f2 _ _ (by omega) (by omega)

/-- The recursion equation of `Formula.at_most_one`. -/
theorem at_most_one_eq (lits : List Int) (st : St) :
    at_most_one lits st =
      if lits.length < 4 then naive_at_most_one lits st
      else at_most_one (amoChunks (chunk3 lits) st).2
        (amoChunks (chunk3 lits) st).1 := by
  unfold at_most_one
  by_cases hlen : lits.length < 4
  · simp only [hlen, if_true]
    cases hl : lits.length with
    | zero => rfl
    | succ f => simp [at_most_one_fuel, hlen]
  · simp only [hlen, if_false]
    cases hl : lits.length with
    | zero => omega
    | succ f =>
      have hstep : at_most_one_fuel (f + 1) lits st =
          at_most_one_fuel f (amoChunks (chunk3 lits) st).2
            (amoChunks (chunk3 lits) st).1 := by
        simp [at_most_one_fuel, hlen]
      rw [hstep]
      apply at_most_one_fuel_inv
      · have : (amoChunks (chunk3 lits) st).2.length < lits.length := by
          rw [amoChunks_snd_length]
          exact chunk3_length_lt (by omega)
        omega
      · omega

theorem at_most_one_small {lits : List Int} (st : St) (h : lits.length < 4) :
    at_most_one lits st = naive_at_most_one lits st := by
  rw [at_most_one_eq]
  simp [h]

/-! ### Soundness of the at-most-one encodings -/

theorem litHolds_neg (v : Nat → Bool) {l : Int} (h : l ≠ 0) :
    litHolds v (-l) = !(litHolds v l) := by
  rcases lt_trichotomy l 0 with hl | hl | hl
  · have h1 : ¬(0 < l) := by omega
    have h2 : (0 : Int) < -l := by omega
    simp [litHolds, h1, h2]
  · exact absurd hl h
  · have h2 : ¬((0 : Int) < -l) := by omega
    simp [litHolds, hl, h2]

theorem pairsOf_mem {q : α × α} : ∀ {xs : List α}, q ∈ pairsOf xs →
    q.1 ∈ xs ∧ q.2 ∈ xs := by
  intro xs
  induction xs with
  | nil => simp [pairsOf]
  | cons x xs ih =>
    intro hq
    simp only [pairsOf, List.mem_append, List.mem_map] at hq
    rcases hq with ⟨y, hy, hy2⟩ | hq
    · constructor
      · simp [← hy2]
      · have : q.2 = y := by rw [← hy2]
        simp [this, hy]
    · obtain ⟨h1, h2⟩ := ih hq
      exact ⟨by simp [h1], by simp [h2]⟩

theorem foldl_add_clause (f : α → List Int) (xs : List α) (st : St) :
    xs.foldl (fun s x => add_clause (f x) s) st =
      { st with nclauses := st.nclauses + xs.length,
                base_clauses := st.base_clauses ++ xs.map f } := by
  induction xs generalizing st with
  | nil => simp
  | cons x xs ih =>
    rw [List.foldl_cons, ih]
    simp only [add_clause, List.map_cons, List.append_assoc,
      List.singleton_append, List.length_cons]
    congr 1
    omega

theorem naive_at_most_one_eq (lits : List Int) (st : St) :
    naive_at_most_one lits st =
      { st with nclauses := st.nclauses + (pairsOf lits).length,
                base_clauses := st.base_clauses ++
                  (pairsOf lits).map (fun q => [-q.1, -q.2]) } := by
  unfold naive_at_most_one
  rw [foldl_add_clause (fun q => [-q.1, -q.2]) (pairsOf lits) st]

theorem naive_at_most_one_sound {lits : List Int} {st : St} {v : Nat → Bool}
    (hnz : ∀ l ∈ lits, l ≠ 0)
    (hsat : satList v (naive_at_most_one lits st).base_clauses) :
    lits.countP (litHolds v) ≤ 1 := by
  apply pairsOf_countP_le_one
  intro q hq
  rintro ⟨h1, h2⟩
  have hc : clauseHolds v [-q.1, -q.2] = true := by
    apply hsat
    rw [naive_at_most_one_eq]
    simp only [List.mem_append, List.mem_map]
    right
    exact ⟨q, hq, rfl⟩
  obtain ⟨hq1, hq2⟩ := pairsOf_mem hq
  simp only [clauseHolds, List.any_eq_true] at hc
  rcases hc with ⟨l, hl, hlh⟩
  simp only [List.mem_cons, List.not_mem_nil, or_false] at hl
  rcases hl with rfl | rfl
  · rw [litHolds_neg v (hnz _ hq1)] at hlh
    simp [h1] at hlh
  · rw [litHolds_neg v (hnz _ hq2)] at hlh
    simp [h2] at hlh

theorem amoGroup_state (g : List Int) (st : St) :
    ((amoGroup g st).1.nvars = st.nvars + 1 ∧
     (amoGroup g st).1.aux_clauses = st.aux_clauses) ∧
    (amoGroup g st).1.base_clauses = st.base_clauses ++
      ((-(((st.nvars + 1 : Nat) : Int))) :: g) ::
       (g.map (fun l => [((st.nvars + 1 : Nat) : Int), -l]) ++
        (pairsOf g).map (fun q => [-q.1, -q.2])) ∧
    (amoGroup g st).2 = ((st.nvars + 1 : Nat) : Int) := by
  unfold amoGroup
  simp only [next_variable]
  rw [foldl_add_clause (fun l => [((st.nvars + 1 : Nat) : Int), -l]) g]
  rw [naive_at_most_one_eq]
  simp [add_clause, set_meaning, List.append_assoc]

theorem amoChunks_base_sublist (gs : List (List Int)) (st : St) :
    List.Sublist st.base_clauses ((amoChunks gs st).1.base_clauses) := by
  induction gs generalizing st with
  | nil => simp [amoChunks]
  | cons g gs ih =>
    simp only [amoChunks]
    refine List.Sublist.trans ?_ (ih (amoGroup g st).1)
    rw [(amoGroup_state g st).2.1]
    exact List.sublist_append_left _ _

theorem amoChunks_cmd_pos (gs : List (List Int)) (st : St) :
    ∀ x ∈ (amoChunks gs st).2, 0 < x := by
  induction gs generalizing st with
  | nil => simp [amoChunks]
  | cons g gs ih =>
    simp only [amoChunks, List.mem_cons]
    rintro x (rfl | hx)
    · rw [(amoGroup_state g st).2.2]
      positivity
    · exact ih (amoGroup g st).1 x hx

theorem amoChunks_sound (gs : List (List Int)) (st : St) (v : Nat → Bool)
    (hnz : ∀ g ∈ gs, ∀ l ∈ g, l ≠ 0)
    (hsat : satList v ((amoChunks gs st).1.base_clauses)) :
    gs.flatten.countP (litHolds v) ≤
      (amoChunks gs st).2.countP (litHolds v) := by
  induction gs generalizing st with
  | nil => simp [amoChunks]
  | cons g gs ih =>
    simp only [amoChunks] at hsat ⊢
    have hblock : satList v ((amoGroup g st).1.base_clauses) :=
      satList_of_sublist (amoChunks_base_sublist gs (amoGroup g st).1) hsat
    obtain ⟨⟨hnv, _⟩, hbase, hcmd⟩ := amoGroup_state g st
    rw [hbase] at hblock
    rw [satList_append] at hblock
    obtain ⟨_, hnew⟩ := hblock
    have hnewc : ∀ c ∈ ((-(((st.nvars + 1 : Nat) : Int))) :: g) ::
        (g.map (fun l => [((st.nvars + 1 : Nat) : Int), -l]) ++
         (pairsOf g).map (fun q => [-q.1, -q.2])), clauseHolds v c = true := hnew
    -- at most one literal of the group is true (pairwise clauses)
    have hg1 : g.countP (litHolds v) ≤ 1 := by
      apply pairsOf_countP_le_one
      intro q hq
      rintro ⟨h1, h2⟩
      have hc : clauseHolds v [-q.1, -q.2] = true := by
        apply hnewc
        simp only [List.mem_cons, List.mem_append, List.mem_map]
        right
        right
        exact ⟨q, hq, rfl⟩
      obtain ⟨hq1, hq2⟩ := pairsOf_mem hq
      simp only [clauseHolds, List.any_eq_true] at hc
      rcases hc with ⟨l, hl, hlh⟩
      simp only [List.mem_cons, List.not_mem_nil, or_false] at hl
      have hgz : ∀ l ∈ g, l ≠ 0 := hnz g (by simp)
      rcases hl with rfl | rfl
      · rw [litHolds_neg v (hgz _ hq1)] at hlh
        simp [h1] at hlh
      · rw [litHolds_neg v (hgz _ hq2)] at hlh
        simp [h2] at hlh
    -- if some literal of the group is true then the commander is true
    have hcm : 1 ≤ g.countP (litHolds v) →
        litHolds v (((st.nvars + 1 : Nat) : Int)) = true := by
      intro hge
      have hge' : 0 < g.countP (litHolds v) := hge
      rw [List.countP_pos_iff] at hge'
      obtain ⟨l, hl, hlt⟩ := hge'
      have hc : clauseHolds v [((st.nvars + 1 : Nat) : Int), -l] = true := by
        apply hnewc
        simp only [List.mem_cons, List.mem_append, List.mem_map]
        right
        left
        exact ⟨l, hl, rfl⟩
      simp only [clauseHolds, List.any_eq_true] at hc
      rcases hc with ⟨x, hx, hxh⟩
      simp only [List.mem_cons, List.not_mem_nil, or_false] at hx
      rcases hx with rfl | rfl
      · exact hxh
      · rw [litHolds_neg v (hnz g (by simp) l hl)] at hxh
        simp [hlt] at hxh
    have hrest := ih (amoGroup g st).1
      (fun a ha l hl => hnz a (by simp [ha]) l hl) hsat
    rw [List.flatten_cons, List.countP_append, List.countP_cons, hcmd]
    by_cases hon : 1 ≤ g.countP (litHolds v)
    · rw [hcm hon, if_pos rfl]
      omega
    · push_neg at hon
      omega

theorem at_most_one_base_sublist (lits : List Int) (st : St) :
    List.Sublist st.base_clauses ((at_most_one lits st).base_clauses) := by
  by_cases h : lits.length < 4
  · rw [at_most_one_small st h, naive_at_most_one_eq]
    exact List.sublist_append_left _ _
  · rw [at_most_one_eq]
    simp only [h, if_false]
    exact List.Sublist.trans (amoChunks_base_sublist (chunk3 lits) st)
      (at_most_one_base_sublist _ _)
termination_by lits.length
decreasing_by
  simp only [amoChunks_snd_length]
  exact chunk3_length_lt (by omega)

theorem chunk3_mem {l : Int} {g : List Int} {lits : List Int}
    (hg : g ∈ chunk3 lits) (hl : l ∈ g) : l ∈ lits := by
  rw [← chunk3_flatten lits]
  exact List.mem_flatten.2 ⟨g, hg, hl⟩

/-- Soundness of `Formula.at_most_one` (commander encoding): a valuation
satisfying all emitted clauses has at most one of the input literals true. -/
theorem at_most_one_sound (lits : List Int) (st : St) (v : Nat → Bool)
    (hnz : ∀ l ∈ lits, l ≠ 0)
    (hsat : satList v ((at_most_one lits st).base_clauses)) :
    lits.countP (litHolds v) ≤ 1 := by
  by_cases h : lits.length < 4
  · rw [at_most_one_small st h] at hsat
    exact naive_at_most_one_sound hnz hsat
  · rw [at_most_one_eq] at hsat
    simp only [h, if_false] at hsat
    have hs1 : satList v (((amoChunks (chunk3 lits) st).1).base_clauses) :=
      satList_of_sublist (at_most_one_base_sublist _ _) hsat
    have hchain := amoChunks_sound (chunk3 lits) st v
      (fun g hg l hl => hnz l (chunk3_mem hg hl)) hs1
    have hcmds := at_most_one_sound (amoChunks (chunk3 lits) st).2
      (amoChunks (chunk3 lits) st).1 v
      (fun l hl => by
        have := amoChunks_cmd_pos (chunk3 lits) st l hl
        omega)
      hsat
    calc lits.countP (litHolds v)
        = (chunk3 lits).flatten.countP (litHolds v) := by
          rw [chunk3_flatten]
      _ ≤ (amoChunks (chunk3 lits) st).2.countP (litHolds v) := hchain
      _ ≤ 1 := hcmds
termination_by lits.length
decreasing_by
  simp only [amoChunks_snd_length]
  exact chunk3_length_lt (by omega)

/-! ### State monotonicity -/

/-- One formula state extends another: variables and base clauses only grow.
Every clause-emitting method of the Python classes preserves this. -/
def StMono (st st' : St) : Prop :=
  st.nvars ≤ st'.nvars ∧ List.Sublist st.base_clauses st'.base_clauses

theorem StMono.refl (st : St) : StMono st st :=
  ⟨le_refl _, List.Sublist.refl _⟩

theorem StMono.trans {s1 s2 s3 : St} (h1 : StMono s1 s2) (h2 : StMono s2 s3) :
    StMono s1 s3 :=
  ⟨le_trans h1.1 h2.1, List.Sublist.trans h1.2 h2.2⟩

theorem add_clause_mono (lits : List Int) (st : St) :
    StMono st (add_clause lits st) :=
  ⟨le_refl _, by simp [add_clause]⟩

theorem naive_at_most_one_mono (lits : List Int) (st : St) :
    StMono st (naive_at_most_one lits st) := by
  rw [naive_at_most_one_eq]
  exact ⟨le_refl _, List.sublist_append_left _ _⟩

theorem amoChunks_nvars (gs : List (List Int)) (st : St) :
    st.nvars ≤ (amoChunks gs st).1.nvars := by
  induction gs generalizing st with
  | nil => simp [amoChunks]
  | cons g gs ih =>
    simp only [amoChunks]
    refine le_trans ?_ (ih (amoGroup g st).1)
    rw [(amoGroup_state g st).1.1]
    omega

theorem at_most_one_mono (lits : List Int) (st : St) :
    StMono st (at_most_one lits st) := by
  by_cases h : lits.length < 4
  · rw [at_most_one_small st h]
    exact naive_at_most_one_mono lits st
  · rw [at_most_one_eq]
    simp only [h, if_false]
    refine StMono.trans ⟨amoChunks_nvars (chunk3 lits) st,
      amoChunks_base_sublist (chunk3 lits) st⟩ (at_most_one_mono _ _)
termination_by lits.length
decreasing_by
  simp only [amoChunks_snd_length]
  exact chunk3_length_lt (by omega)

theorem foldl_mono {σ : Type u} {g : σ → St} {f : σ → α → σ}
    (h : ∀ s a, StMono (g s) (g (f s a))) (xs : List α) (s : σ) :
    StMono (g s) (g (xs.foldl f s)) := by
  induction xs generalizing s with
  | nil => exact StMono.refl _
  | cons x xs ih => exact StMono.trans (h s x) (ih (f s x))

/-! ### `Formula.inject_vertices` (sat.py)

The `assignment_variables` dictionary of the Python object becomes an
association list from signature labels to per-signature tables; each
per-signature table maps a methyl (keyed by its label) to its variable id. -/

/-- A per-signature assignment-variable table (Python: a dict keyed by
`Methyl` objects, which hash and compare by label). -/
abbrev SigTable := List (Methyl × Nat)

/-- The whole `assignment_variables` dictionary. -/
abbrev AsgTable := List (String × SigTable)

/-- Python `table[methyl] = var`: overwrite if the key is present (keeping
the originally inserted key object), else append. -/
def tableInsert (es : SigTable) (m : Methyl) (x : Nat) : SigTable :=
  if es.any (fun e => e.1.label == m.label)
  then es.map (fun e => if e.1.label == m.label then (e.1, x) else e)
  else es ++ [(m, x)]

/-- `self.assignment_variables[s]` (empty for an unknown signature; the
Python dict is pre-seeded with every signature). -/
def sigEntries (tbl : AsgTable) (s : String) : SigTable :=
  match tbl.find? (fun e => e.1 == s) with
  | some e => e.2
  | none => []

/-- `self.assignment_variables[s][m]`, as an optional lookup
(`m in self.assignment_variables[s]` is `isSome`). -/
def lookupVar (tbl : AsgTable) (s m : String) : Option Nat :=
  ((sigEntries tbl s).find? (fun e => e.1.label == m)).map (fun e => e.2)

/-- The methyl domain of a signature in `inject_vertices`: `options` if
`FORCE_SV` and non-empty, else `asg` if `FORCE_ASG` and non-empty, else the
colour-compatible methyls. -/
def domainOf (p : CParams) (sig : Sig) (methyls : List Methyl) : List Methyl :=
  if p.FORCE_SV && !sig.options.isEmpty then sig.options
  else if p.FORCE_ASG && !sig.asg.isEmpty then sig.asg
  else methyls.filter (fun m => sig.color.contains m.color)

/-- The body of the signature loop of `inject_vertices`: allocate one
variable per domain methyl, then force exactly one of them true. -/
def injectSig (p : CParams) (methyls : List Methyl) (acc : St × AsgTable)
    (sig : Sig) : St × AsgTable :=
  let dom := domainOf p sig methyls
  let r := dom.foldl (fun (a : St × SigTable) m =>
      let q := next_variable a.1
      (set_meaning q.1 (VarMeaning.asgv sig.label m.label) q.2,
       tableInsert a.2 m q.1)) (acc.1, [])
  let lits := r.2.map (fun e => ((e.2 : Nat) : Int))
  let st := add_clause lits (at_most_one lits r.1)
  (st, acc.2 ++ [(sig.label, r.2)])

/-- `Formula.inject_vertices`: create assignment variables, force exactly
one assignment per signature and at most one signature per methyl. -/
def inject_vertices (p : CParams) (sigs : List Sig) (methyls : List Methyl)
    (st : St) : St × AsgTable :=
  let a := sigs.foldl (injectSig p methyls) (st, [])
  let st2 := methyls.foldl (fun s m =>
      at_most_one (sigs.filterMap
        (fun sg => (lookupVar a.2 sg.label m.label).map
          (fun x => ((x : Nat) : Int)))) s) a.1
  (st2, a.2)

/-! ### Properties of `inject_vertices` -/

theorem allocFold_spec (sl : String) (dom : List Methyl) (st : St)
    (es : SigTable)
    (hdisj : ∀ e ∈ es, ∀ m ∈ dom, e.1.label ≠ m.label)
    (hnd : (dom.map Methyl.label).Nodup) :
    (dom.foldl (fun (a : St × SigTable) m =>
        let q := next_variable a.1
        (set_meaning q.1 (VarMeaning.asgv sl m.label) q.2,
         tableInsert a.2 m q.1)) (st, es)).1.nvars = st.nvars + dom.length ∧
    (dom.foldl (fun (a : St × SigTable) m =>
        let q := next_variable a.1
        (set_meaning q.1 (VarMeaning.asgv sl m.label) q.2,
         tableInsert a.2 m q.1)) (st, es)).1.base_clauses = st.base_clauses ∧
    (dom.foldl (fun (a : St × SigTable) m =>
        let q := next_variable a.1
        (set_meaning q.1 (VarMeaning.asgv sl m.label) q.2,
         tableInsert a.2 m q.1)) (st, es)).2 =
      es ++ dom.zip (List.range' (st.nvars + 1) dom.length) := by
  induction dom generalizing st es with
  | nil => simp
  | cons m rest ih =>
    have hfresh : tableInsert es m (st.nvars + 1) = es ++ [(m, st.nvars + 1)] := by
      unfold tableInsert
      rw [if_neg]
      simp only [List.any_eq_true, beq_iff_eq, not_exists, not_and]
      intro e he
      intro hww
      exact hdisj e he m (by simp) hww
    have hstep : (let q := next_variable (st, es).1;
        ((set_meaning q.1 (VarMeaning.asgv sl m.label) q.2,
          tableInsert (st, es).2 m q.1) : St × SigTable)) =
        ({ nvars := st.nvars + 1, nclauses := st.nclauses,
           base_clauses := st.base_clauses, aux_clauses := st.aux_clauses,
           variable_meaning := st.variable_meaning ++
             [(st.nvars + 1, VarMeaning.asgv sl m.label)] },
         es ++ [(m, st.nvars + 1)]) := by
      simp [next_variable, set_meaning, hfresh]
    rw [List.foldl_cons, hstep]
    have hd2 : ∀ e ∈ es ++ [(m, st.nvars + 1)], ∀ m2 ∈ rest,
        e.1.label ≠ m2.label := by
      intro e he m2 hm2
      rcases List.mem_append.1 he with he | he
      · exact hdisj e he m2 (by simp [hm2])
      · simp only [List.mem_singleton] at he
        subst he
        simp only [List.map_cons, List.nodup_cons] at hnd
        intro hc
        exact hnd.1 (hc ▸ List.mem_map_of_mem Methyl.label hm2)
    have hnd2 : (rest.map Methyl.label).Nodup := by
      simp only [List.map_cons, List.nodup_cons] at hnd
      exact hnd.2
    obtain ⟨h1, h2, h3⟩ :=
      ih { nvars := st.nvars + 1, nclauses := st.nclauses,
           base_clauses := st.base_clauses, aux_clauses := st.aux_clauses,
           variable_meaning := st.variable_meaning ++
             [(st.nvars + 1, VarMeaning.asgv sl m.label)] }
        (es ++ [(m, st.nvars + 1)]) hd2 hnd2
    refine ⟨by rw [h1]; simp <;> omega, by rw [h2], ?_⟩
    rw [h3]
    simp only [List.length_cons, List.range'_succ, List.zip_cons_cons,
      List.append_assoc, List.singleton_append]

theorem injectSig_table (p : CParams) (methyls : List Methyl)
    (acc : St × AsgTable) (sig : Sig)
    (hnd : ((domainOf p sig methyls).map Methyl.label).Nodup) :
    (injectSig p methyls acc sig).2 = acc.2 ++
      [(sig.label, (domainOf p sig methyls).zip
          (List.range' (acc.1.nvars + 1) (domainOf p sig methyls).length))] := by
  unfold injectSig
  obtain ⟨h1, h2, h3⟩ := allocFold_spec sig.label (domainOf p sig methyls)
    acc.1 [] (by simp) hnd
  simp only [h3]
  simp

theorem injectSig_mono (p : CParams) (methyls : List Methyl)
    (acc : St × AsgTable) (sig : Sig) :
    StMono acc.1 (injectSig p methyls acc sig).1 := by
  unfold injectSig
  refine StMono.trans (StMono.trans ?_ (at_most_one_mono _ _))
    (add_clause_mono _ _)
  exact foldl_mono (g := fun (a : St × SigTable) => a.1)
    (fun s a => ⟨by simp [next_variable, set_meaning],
                 by simp [next_variable, set_meaning]⟩)
    (domainOf p sig methyls) (acc.1, [])

/-- Any valuation satisfying the clauses present after `injectSig` makes
exactly one of the signature's fresh assignment variables true. -/
theorem injectSig_exactlyOne (p : CParams) (methyls : List Methyl)
    (acc : St × AsgTable) (sig : Sig) (v : Nat → Bool)
    (hnd : ((domainOf p sig methyls).map Methyl.label).Nodup)
    (hsat : satList v ((injectSig p methyls acc sig).1.base_clauses)) :
    ((domainOf p sig methyls).zip
        (List.range' (acc.1.nvars + 1) (domainOf p sig methyls).length)).countP
      (fun e => v e.2) = 1 := by
  unfold injectSig at hsat
  obtain ⟨h1, h2, h3⟩ := allocFold_spec sig.label (domainOf p sig methyls)
    acc.1 [] (by simp) hnd
  set dom := domainOf p sig methyls
  set es := dom.zip (List.range' (acc.1.nvars + 1) dom.length) with hes
  simp only [h3, List.nil_append] at hsat
  have hpos : ∀ e ∈ es, acc.1.nvars + 1 ≤ e.2 := by
    intro e he
    have := List.of_mem_zip he
    have h4 := this.2
    rw [List.mem_range'_1] at h4
    omega
  have hlits : ∀ l ∈ es.map (fun e => ((e.2 : Nat) : Int)), l ≠ 0 := by
    intro l hl
    simp only [List.mem_map] at hl
    obtain ⟨e, he, rfl⟩ := hl
    have := hpos e he
    omega
  have hcount : (es.map (fun e => ((e.2 : Nat) : Int))).countP (litHolds v) =
      es.countP (fun e => v e.2) := by
    rw [List.countP_map]
    apply List.countP_congr
    intro e he
    have := hpos e he
    simp only [Function.comp_apply, litHolds]
    rw [if_pos (by omega)]
    simp
  have hle : es.countP (fun e => v e.2) ≤ 1 := by
    rw [← hcount]
    apply at_most_one_sound _ _ v hlits
    exact satList_of_sublist (add_clause_mono _ _).2 hsat
  have hge : 1 ≤ es.countP (fun e => v e.2) := by
    have hcl : clauseHolds v (es.map (fun e => ((e.2 : Nat) : Int))) = true := by
      apply hsat
      simp [add_clause]
    simp only [clauseHolds, List.any_eq_true] at hcl
    obtain ⟨l, hl, hlt⟩ := hcl
    simp only [List.mem_map] at hl
    obtain ⟨e, he, rfl⟩ := hl
    have hp := hpos e he
    simp only [litHolds] at hlt
    rw [if_pos (by omega)] at hlt
    simp only [Int.toNat_ofNat] at hlt
    have : 0 < es.countP (fun e => v e.2) := by
      rw [List.countP_pos_iff]
      exact ⟨e, he, hlt⟩
    omega
  omega

theorem injectLoop_table_ext (p : CParams) (methyls : List Methyl) :
    ∀ (sigs : List Sig) (acc : St × AsgTable), ∃ t,
      (sigs.foldl (injectSig p methyls) acc).2 = acc.2 ++ t := by
  intro sigs
  induction sigs with
  | nil => exact fun acc => ⟨[], by simp⟩
  | cons s0 rest ih =>
    intro acc
    obtain ⟨t, ht⟩ := ih (injectSig p methyls acc s0)
    refine ⟨(injectSig p methyls acc s0).2.drop acc.2.length ++ t, ?_⟩
    rw [List.foldl_cons, ht]
    have : (injectSig p methyls acc s0).2 =
        acc.2 ++ (injectSig p methyls acc s0).2.drop acc.2.length := by
      unfold injectSig
      simp
    rw [← List.append_assoc, ← this]

theorem sigEntries_append_of_not_mem {A B : AsgTable} {s : String}
    (h : s ∉ A.map Prod.fst) : sigEntries (A ++ B) s = sigEntries B s := by
  unfold sigEntries
  rw [List.find?_append]
  have : A.find? (fun e => e.1 == s) = none := by
    rw [List.find?_eq_none]
    intro e he
    simp only [beq_iff_eq]
    intro hc
    exact h (hc ▸ List.mem_map_of_mem Prod.fst he)
  rw [this]
  simp

theorem sigEntries_cons_self (s : String) (es : SigTable) (B : AsgTable) :
    sigEntries ((s, es) :: B) s = es := by
  unfold sigEntries
  simp [List.find?_cons]

theorem injectLoop_mono (p : CParams) (methyls : List Methyl)
    (sigs : List Sig) (acc : St × AsgTable) :
    StMono acc.1 ((sigs.foldl (injectSig p methyls) acc).1) :=
  foldl_mono (g := fun (a : St × AsgTable) => a.1)
    (fun s a => injectSig_mono p methyls s a) sigs acc

/-- After the signature loop of `inject_vertices`, every signature's table
lists exactly its methyl domain, and any valuation satisfying the emitted
clauses sets exactly one of its variables true. -/
theorem injectLoop_exactlyOne (p : CParams) (methyls : List Methyl)
    (v : Nat → Bool) :
    ∀ (sigs : List Sig) (acc : St × AsgTable) (sig : Sig), sig ∈ sigs →
    (sigs.map Sig.label).Nodup →
    (∀ sg ∈ sigs, sg.label ∉ acc.2.map Prod.fst) →
    (∀ sg ∈ sigs, ((domainOf p sg methyls).map Methyl.label).Nodup) →
    satList v ((sigs.foldl (injectSig p methyls) acc).1.base_clauses) →
    (sigEntries (sigs.foldl (injectSig p methyls) acc).2 sig.label).map
        Prod.fst = domainOf p sig methyls ∧
    (sigEntries (sigs.foldl (injectSig p methyls) acc).2 sig.label).countP
        (fun e => v e.2) = 1 := by
  intro sigs
  induction sigs with
  | nil => simp
  | cons s0 rest ih =>
    intro acc sig hmem hnds hkeys hdom hsat
    rw [List.foldl_cons] at hsat ⊢
    rcases List.mem_cons.1 hmem with rfl | hmem
    · obtain ⟨t, ht⟩ := injectLoop_table_ext p methyls rest
        (injectSig p methyls acc sig)
      rw [ht, injectSig_table p methyls acc sig (hdom sig (by simp))]
      rw [List.append_assoc, sigEntries_append_of_not_mem
        (hkeys sig (by simp)), List.singleton_append, sigEntries_cons_self]
      constructor
      · apply List.map_fst_zip
        simp
      · apply injectSig_exactlyOne p methyls acc sig v (hdom sig (by simp))
        exact satList_of_sublist (injectLoop_mono p methyls rest _).2 hsat
    · have hlab : s0.label ≠ sig.label := by
        simp only [List.map_cons, List.nodup_cons] at hnds
        intro hc
        exact hnds.1 (hc ▸ List.mem_map_of_mem Sig.label hmem)
      apply ih (injectSig p methyls acc s0) sig hmem
      · simp only [List.map_cons, List.nodup_cons] at hnds
        exact hnds.2
      · intro sg hsg
        rw [injectSig_table p methyls acc s0 (hdom s0 (by simp))]
        simp only [List.map_append, List.mem_append, List.map_cons]
        rintro (hc | hc)
        · exact hkeys sg (by simp [hsg]) hc
        · simp only [List.map_nil, List.mem_singleton] at hc
          simp only [List.map_cons, List.nodup_cons] at hnds
          exact hnds.1 (hc ▸ List.mem_map_of_mem Sig.label hsg)
      · exact fun sg hsg => hdom sg (by simp [hsg])
      · exact hsat

/-- Every variable ever placed in the assignment table is a genuine
(positive) variable id. -/
theorem injectLoop_tblPos (p : CParams) (methyls : List Methyl) :
    ∀ (sigs : List Sig) (acc : St × AsgTable),
    (∀ pr ∈ acc.2, ∀ e ∈ pr.2, 1 ≤ e.2) →
    (∀ sg ∈ sigs, ((domainOf p sg methyls).map Methyl.label).Nodup) →
    ∀ pr ∈ (sigs.foldl (injectSig p methyls) acc).2, ∀ e ∈ pr.2, 1 ≤ e.2 := by
  intro sigs
  induction sigs with
  | nil => exact fun acc h _ => h
  | cons s0 rest ih =>
    intro acc hacc hdom
    rw [List.foldl_cons]
    apply ih
    · intro pr hpr e he
      rw [injectSig_table p methyls acc s0 (hdom s0 (by simp))] at hpr
      rcases List.mem_append.1 hpr with hpr | hpr
      · exact hacc pr hpr e he
      · simp only [List.mem_singleton] at hpr
        subst hpr
        simp only at he
        have := (List.of_mem_zip he).2
        rw [List.mem_range'_1] at this
        omega
    · exact fun sg hsg => hdom sg (by simp [hsg])

theorem lookupVar_pos {tbl : AsgTable} {s m : String} {x : Nat}
    (hpos : ∀ pr ∈ tbl, ∀ e ∈ pr.2, 1 ≤ e.2)
    (hl : lookupVar tbl s m = some x) : 1 ≤ x := by
  unfold lookupVar sigEntries at hl
  rcases hfind : tbl.find? (fun e => e.1 == s) with _ | pr
  · rw [hfind] at hl
    simp at hl
  · rw [hfind] at hl
    simp only [Option.map_eq_some'] at hl
    obtain ⟨e, he, rfl⟩ := hl
    exact hpos pr (List.mem_of_find?_eq_some hfind) e
      (List.mem_of_find?_eq_some he)

/-- Soundness of a fold that emits one at-most-one constraint per element. -/
theorem amoFold_sound {L : α → List Int} (v : Nat → Bool) :
    ∀ (xs : List α) (st : St) (x : α), x ∈ xs →
    satList v ((xs.foldl (fun s y => at_most_one (L y) s) st).base_clauses) →
    (∀ l ∈ L x, l ≠ 0) → (L x).countP (litHolds v) ≤ 1 := by
  intro xs
  induction xs with
  | nil => simp
  | cons y ys ih =>
    intro st x hx hsat hnz
    rw [List.foldl_cons] at hsat
    rcases List.mem_cons.1 hx with rfl | hx
    · apply at_most_one_sound (L x) st v hnz
      refine satList_of_sublist ?_ hsat
      exact (foldl_mono (g := fun s : St => s)
        (fun s a => at_most_one_mono (L a) s) ys (at_most_one (L x) st)).2
    · exact ih (at_most_one (L y) st) x hx hsat hnz

theorem countP_filterMap_getD {β : Type u} (f : α → Option β) (q : β → Bool) :
    ∀ xs : List α, (xs.filterMap f).countP q =
      xs.countP (fun x => ((f x).map q).getD false) := by
  intro xs
  induction xs with
  | nil => simp
  | cons x xs ih =>
    rcases hf : f x with _ | b
    · rw [List.filterMap_cons_none hf, List.countP_cons, ih, hf]
      simp
    · rw [List.filterMap_cons_some hf, List.countP_cons, List.countP_cons,
        ih, hf]
      simp

theorem next_variable_mono (st : St) : StMono st (next_variable st).2 :=
  ⟨by simp [next_variable], by simp [next_variable]⟩

theorem set_meaning_mono (x : Nat) (mn : VarMeaning) (st : St) :
    StMono st (set_meaning x mn st) :=
  ⟨by simp [set_meaning], by simp [set_meaning]⟩

/-! ### The NOE network and the remaining `ClusteringCSP` phases -/

/-- The active symmetrization graph handed to `ClusteringCSP.__init__`
(NOE nodes and undirected edges), i.e. the value of
`network.active_graph()`. -/
structure Net where
  nodes : List Noe
  edges : List (Noe × Noe)

/-- `network.degree(x)`: the number of incident edges. -/
def Net.degree (net : Net) (x : Noe) : Nat :=
  net.edges.countP (fun e => e.1.label == x.label || e.2.label == x.label)

/-- Generic Python dict assignment on a string-keyed association list
(replace the value if the key is present, else append). -/
def dictInsert (es : List (String × Nat)) (k : String) (x : Nat) :
    List (String × Nat) :=
  if es.any (fun e => e.1 == k)
  then es.map (fun e => if e.1 == k then (e.1, x) else e)
  else es ++ [(k, x)]

/-- Dict lookup on an outer table of tables (`{}` for an absent key, as the
Python dictionaries are pre-seeded with every node). -/
def tblGet (tbl : List (String × List (String × Nat))) (k : String) :
    List (String × Nat) :=
  ((tbl.find? (fun e => e.1 == k)).map Prod.snd).getD []

/-- Replace (or create) an outer-table entry. -/
def tblSet (tbl : List (String × List (String × Nat))) (k : String)
    (es : List (String × Nat)) : List (String × List (String × Nat)) :=
  if tbl.any (fun e => e.1 == k)
  then tbl.map (fun e => if e.1 == k then (e.1, es) else e)
  else tbl ++ [(k, es)]

/-- Inner dict lookup; the Python code indexes directly (`KeyError` if the
key is missing), which in every constructed CSP cannot happen, so the
default `0` below is never produced on the runs the theorems quantify
over. -/
def dictGet (es : List (String × Nat)) (k : String) : Nat :=
  ((es.find? (fun e => e.1 == k)).map Prod.snd).getD 0

/-- The `clustering_variables` dictionary: NOE label to
(signature label to variable). -/
abbrev CstTable := List (String × List (String × Nat))

/-- The `activation_variables` dictionary: NOE label to
(neighbouring NOE label to variable). -/
abbrev ActTable := List (String × List (String × Nat))

/-- `ClusteringCSP.create_clustering_variables`: one variable per possible
cluster for every NOE with an ambiguous clustering, with an exactly-one
constraint. -/
def create_clustering_variables (net : Net) (acc : St × CstTable) :
    St × CstTable :=
  net.nodes.foldl (fun a noe =>
    if noe.clusters.length == 1 then a
    else
      let r := noe.clusters.foldl (fun (b : St × List (String × Nat)) c =>
          let q := next_variable b.1
          (set_meaning q.1 (VarMeaning.cstv noe.label c) q.2,
           dictInsert b.2 c q.1)) (a.1, [])
      let lits := r.2.map (fun e => ((e.2 : Nat) : Int))
      (add_clause lits (at_most_one lits r.1), a.2 ++ [(noe.label, r.2)])) acc

/-- The per-edge body of `create_activation_variables`: skip an edge whose
endpoints both have degree one, otherwise allocate a variable and enter it
under both endpoints. -/
def actStep (net : Net) (a : St × ActTable) (e : Noe × Noe) :
    St × ActTable :=
  if net.degree e.1 == 1 && net.degree e.2 == 1 then a
  else
    let q := next_variable a.1
    let t1 := tblSet a.2 e.1.label (dictInsert (tblGet a.2 e.1.label)
      e.2.label q.1)
    let t2 := tblSet t1 e.2.label (dictInsert (tblGet t1 e.2.label)
      e.1.label q.1)
    (set_meaning q.1 (VarMeaning.actv e.1.label e.2.label) q.2, t2)

/-- `ClusteringCSP.create_activation_variables`: one variable per edge whose
endpoints are not both of degree one (such an edge is its own two-node
component and is always active), entered under both endpoints. -/
def create_activation_variables (net : Net) (acc : St × ActTable) :
    St × ActTable :=
  net.edges.foldl (actStep net) acc

/-- One connected component of the active graph together with the values
the `networkx` library computes for it inside
`ClusteringCSP.respect_matching`: `setsA, setsB` from `nx.bipartite.sets`
and `mcm_size` from `len(nx.max_weight_matching(..., maxcardinality=True))`.
The runtime `assert mcm_size == len(left)` appears as a hypothesis of the
theorems (a failing assert aborts construction). -/
structure Comp where
  nodes : List Noe
  edges : List (Noe × Noe)
  setsA : List Noe
  setsB : List Noe
  mcm_size : Nat

/-- The swap `left, right = right, left` when `len(left) > len(right)`. -/
def Comp.leftRight (comp : Comp) : List Noe × List Noe :=
  if comp.setsA.length > comp.setsB.length then (comp.setsB, comp.setsA)
  else (comp.setsA, comp.setsB)

/-- `ClusteringCSP.respect_matching`: skip components of fewer than three
nodes; on the smaller bipartition side force exactly one incident activation
variable true, on the larger side at most one. -/
def respect_matching (comps : List Comp) (tbl : ActTable) (st : St) : St :=
  comps.foldl (fun s comp =>
    if comp.nodes.length < 3 then s
    else
      let lr := comp.leftRight
      let s1 := lr.1.foldl (fun s2 l =>
          let lits := (tblGet tbl l.label).map (fun e => ((e.2 : Nat) : Int))
          add_clause lits (at_most_one lits s2)) s
      lr.2.foldl (fun s2 r =>
          let lits := (tblGet tbl r.label).map (fun e => ((e.2 : Nat) : Int))
          at_most_one lits s2) s1) st

/-- `ClusteringCSP.respect_distance_constraint`: for each methyl in the
domain of `alpha`, emit `base_clause ∨ ¬asg[alpha,am] ∨ ⋁ asg[beta,bm]`
over the distinct methyls `bm` within the applicable radius. -/
def respect_distance_constraint (p : CParams) (tbl : AsgTable)
    (alpha beta : String) (dist : String → String → ℚ)
    (base_clause : List Int) (short : Bool) (st : St) : St :=
  (sigEntries tbl alpha).foldl (fun s am =>
    let clause := base_clause ++ [-(((am.2 : Nat) : Int))]
    let clause := (sigEntries tbl beta).foldl (fun cl bm =>
      if am.1.label == bm.1.label then cl
      else if short then
        (if dist am.1.label bm.1.label < p.SHORT_RADIUS
         then cl ++ [((bm.2 : Nat) : Int)] else cl)
      else if am.1.added || bm.1.added then
        (if dist am.1.label bm.1.label < p.ADDED_RADIUS
         then cl ++ [((bm.2 : Nat) : Int)] else cl)
      else
        (if dist am.1.label bm.1.label < p.RADIUS
         then cl ++ [((bm.2 : Nat) : Int)] else cl)) clause
    add_clause clause s) st

/-- `ClusteringCSP.distance_constraints`: iterate over the edges of the
active network and all clusterings of the two endpoint NOEs.  Note
`short := i.short_range` (sat.py line 557): only the first endpoint of the
edge tuple decides the short-range cutoff. -/
def distance_constraints (p : CParams) (net : Net) (actTbl : ActTable)
    (cstTbl : CstTable) (asgTbl : AsgTable) (dist : String → String → ℚ)
    (st : St) : St :=
  net.edges.foldl (fun s e =>
    let short := e.1.short_range
    e.1.clusters.foldl (fun s2 ic =>
      e.2.clusters.foldl (fun s3 jc =>
        if ic == jc then s3
        else
          let b1 : List Int :=
            if net.degree e.1 > 1 || net.degree e.2 > 1
            then [-((dictGet (tblGet actTbl e.1.label) e.2.label : Nat) : Int)]
            else []
          let b2 := if e.1.clusters.length > 1
            then b1 ++ [-((dictGet (tblGet cstTbl e.1.label) ic : Nat) : Int)]
            else b1
          let b3 := if e.2.clusters.length > 1
            then b2 ++ [-((dictGet (tblGet cstTbl e.2.label) jc : Nat) : Int)]
            else b2
          respect_distance_constraint p asgTbl ic jc dist b3 short s3) s2) s) st

/-- `ClusteringCSP.geminal_constraints`: a signature with a geminal partner
may only be assigned to a methyl whose geminal pair hosts the partner. -/
def geminal_constraints (sigs : List Sig) (asgTbl : AsgTable) (st : St) : St :=
  (sigs.filter (fun s => s.geminal.isSome)).foldl (fun s1 i =>
    let j := i.geminal.getD ""
    (sigEntries asgTbl i.label).foldl (fun s2 im =>
      let clause := (sigEntries asgTbl j).foldl (fun cl jm =>
          if im.1.geminal jm.1 then cl ++ [((jm.2 : Nat) : Int)] else cl)
        [-((im.2 : Nat) : Int)]
      add_clause clause s2) s1) st

/-- The full state of a constructed `ClusteringCSP`. -/
structure CSPOut where
  st : St
  asg : AsgTable
  cst : CstTable
  act : ActTable

/-- `ClusteringCSP.__init__`, given the active network and the component
data computed by networkx. -/
def ClusteringCSP (p : CParams) (sigs : List Sig) (methyls : List Methyl)
    (net : Net) (comps : List Comp) (dist : String → String → ℚ) : CSPOut :=
  let a := inject_vertices p sigs methyls St.empty
  let b := create_clustering_variables net (a.1, [])
  let c := create_activation_variables net (b.1, [])
  let d := respect_matching comps c.2 c.1
  let e := distance_constraints p net c.2 b.2 a.2 dist d
  let f := geminal_constraints sigs a.2 e
  { st := f, asg := a.2, cst := b.2, act := c.2 }

/-! ### `IsomorphismCSP` -/

/-- An edge of the signature graph H consumed by `IsomorphismCSP`, with the
`short` edge attribute its `distance_constraints` reads. -/
structure HEdge where
  i : Sig
  j : Sig
  short : Bool

/-- `IsomorphismCSP.distance_constraints` (with `variable_cost` threaded as
the second component). -/
def iso_distance_constraints (p : CParams) (hedges : List HEdge)
    (tbl : AsgTable) (dist : String → String → ℚ) (ev : Bool)
    (acc : St × List (Nat × ℚ)) : St × List (Nat × ℚ) :=
  hedges.foldl (fun a e =>
    let hg := e.i.is_geminal e.j
    (sigEntries tbl e.i.label).foldl (fun a1 im =>
      let r := (sigEntries tbl e.j.label).foldl
        (fun (b : List Int × St × List (Nat × ℚ)) jm =>
          if im.1.label == jm.1.label then b
          else if hg && !(im.1.geminal jm.1) then b
          else
            let d := dist im.1.label jm.1.label
            let wr := if e.short then decide (d < p.SHORT_RADIUS)
                      else if im.1.added || jm.1.added then
                        decide (d < p.ADDED_RADIUS)
                      else decide (d < p.RADIUS)
            if wr then
              let cl := b.1 ++ [((jm.2 : Nat) : Int)]
              if ev then
                let q := next_variable b.2.1
                let s2 := set_meaning q.1 (VarMeaning.edgv e.i.label e.j.label
                  im.1.label jm.1.label) q.2
                let s3 := add_clause [-((q.1 : Nat) : Int),
                  ((im.2 : Nat) : Int)] s2
                let s4 := add_clause [-((q.1 : Nat) : Int),
                  ((jm.2 : Nat) : Int)] s3
                let s5 := add_clause [((q.1 : Nat) : Int),
                  -((im.2 : Nat) : Int), -((jm.2 : Nat) : Int)] s4
                (cl, s5, b.2.2 ++ [(q.1, d)])
              else (cl, b.2)
            else b) ([-((im.2 : Nat) : Int)], a1)
      (add_clause r.1 r.2.1, r.2.2)) a) acc

/-- `IsomorphismCSP.__init__` over the vertices and edges of the graph H. -/
def IsomorphismCSP (p : CParams) (nodes : List Sig) (hedges : List HEdge)
    (methyls : List Methyl) (dist : String → String → ℚ) (ev : Bool) :
    (St × List (Nat × ℚ)) × AsgTable :=
  let a := inject_vertices p nodes methyls St.empty
  let r := iso_distance_constraints p hedges a.2 dist ev (a.1, [])
  (r, a.2)

/-! ### Monotonicity of every phase -/

theorem create_clustering_variables_mono (net : Net) (acc : St × CstTable) :
    StMono acc.1 (create_clustering_variables net acc).1 := by
  unfold create_clustering_variables
  apply foldl_mono (g := fun (a : St × CstTable) => a.1)
  intro a noe
  dsimp only
  split
  · exact StMono.refl _
  · exact StMono.trans (StMono.trans
      (foldl_mono (g := fun (b : St × List (String × Nat)) => b.1)
        (fun b c => StMono.trans (next_variable_mono b.1)
          (set_meaning_mono _ _ _)) noe.clusters (a.1, []))
      (at_most_one_mono _ _)) (add_clause_mono _ _)

theorem actStep_mono (net : Net) (a : St × ActTable) (e : Noe × Noe) :
    StMono a.1 (actStep net a e).1 := by
  unfold actStep
  split
  · exact StMono.refl _
  · exact StMono.trans (next_variable_mono a.1) (set_meaning_mono _ _ _)

theorem create_activation_variables_mono (net : Net) (acc : St × ActTable) :
    StMono acc.1 (create_activation_variables net acc).1 := by
  unfold create_activation_variables
  apply foldl_mono (g := fun (a : St × ActTable) => a.1)
  intro a e
  exact actStep_mono net a e

theorem respect_matching_mono (comps : List Comp) (tbl : ActTable) (st : St) :
    StMono st (respect_matching comps tbl st) := by
  unfold respect_matching
  apply foldl_mono (g := fun s : St => s)
  intro s comp
  dsimp only
  split
  · exact StMono.refl _
  · refine StMono.trans (foldl_mono (g := fun s : St => s) ?_ _ _)
      (foldl_mono (g := fun s : St => s) ?_ _ _)
    · intro s2 l
      exact StMono.trans (at_most_one_mono _ _) (add_clause_mono _ _)
    · intro s2 r
      exact at_most_one_mono _ _

theorem respect_distance_constraint_mono (p : CParams) (tbl : AsgTable)
    (alpha beta : String) (dist : String → String → ℚ)
    (base_clause : List Int) (short : Bool) (st : St) :
    StMono st (respect_distance_constraint p tbl alpha beta dist base_clause
      short st) := by
  unfold respect_distance_constraint
  apply foldl_mono (g := fun s : St => s)
  intro s am
  exact add_clause_mono _ _

theorem distance_constraints_mono (p : CParams) (net : Net)
    (actTbl : ActTable) (cstTbl : CstTable) (asgTbl : AsgTable)
    (dist : String → String → ℚ) (st : St) :
    StMono st (distance_constraints p net actTbl cstTbl asgTbl dist st) := by
  unfold distance_constraints
  apply foldl_mono (g := fun s : St => s)
  intro s e
  apply foldl_mono (g := fun s : St => s)
  intro s2 ic
  apply foldl_mono (g := fun s : St => s)
  intro s3 jc
  dsimp only
  split
  · exact StMono.refl _
  · exact respect_distance_constraint_mono _ _ _ _ _ _ _ _

theorem geminal_constraints_mono (sigs : List Sig) (asgTbl : AsgTable)
    (st : St) : StMono st (geminal_constraints sigs asgTbl st) := by
  unfold geminal_constraints
  apply foldl_mono (g := fun s : St => s)
  intro s1 i
  apply foldl_mono (g := fun s : St => s)
  intro s2 im
  exact add_clause_mono _ _

theorem iso_distance_constraints_mono (p : CParams) (hedges : List HEdge)
    (tbl : AsgTable) (dist : String → String → ℚ) (ev : Bool)
    (acc : St × List (Nat × ℚ)) :
    StMono acc.1 (iso_distance_constraints p hedges tbl dist ev acc).1 := by
  unfold iso_distance_constraints
  apply foldl_mono (g := fun (a : St × List (Nat × ℚ)) => a.1)
  intro a e
  dsimp only
  apply foldl_mono (g := fun (a : St × List (Nat × ℚ)) => a.1)
  intro a1 im
  dsimp only
  refine StMono.trans ?_ (add_clause_mono _ _)
  refine foldl_mono (g := fun (b : List Int × St × List (Nat × ℚ)) => b.2.1)
    ?_ (sigEntries tbl e.j.label) ([-((im.2 : Nat) : Int)], a1)
  intro b jm
  dsimp only
  repeat' split
  all_goals first
    | exact StMono.refl _
    | exact StMono.trans (next_variable_mono b.2.1)
        (StMono.trans (set_meaning_mono _ _ _)
          (StMono.trans (add_clause_mono _ _)
            (StMono.trans (add_clause_mono _ _) (add_clause_mono _ _))))

theorem inject_vertices_mono (p : CParams) (sigs : List Sig)
    (methyls : List Methyl) (st : St) :
    StMono st (inject_vertices p sigs methyls st).1 := by
  unfold inject_vertices
  refine StMono.trans (injectLoop_mono p methyls sigs (st, [])) ?_
  exact foldl_mono (g := fun s : St => s)
    (fun s m => at_most_one_mono _ s) methyls _

theorem ClusteringCSP_inject_sublist (p : CParams) (sigs : List Sig)
    (methyls : List Methyl) (net : Net) (comps : List Comp)
    (dist : String → String → ℚ) :
    List.Sublist (inject_vertices p sigs methyls St.empty).1.base_clauses
      (ClusteringCSP p sigs methyls net comps dist).st.base_clauses := by
  refine List.Sublist.trans (create_clustering_variables_mono net
    ((inject_vertices p sigs methyls St.empty).1, [])).2 ?_
  refine List.Sublist.trans (create_activation_variables_mono net
    ((create_clustering_variables net
      ((inject_vertices p sigs methyls St.empty).1, [])).1, [])).2 ?_
  refine List.Sublist.trans (respect_matching_mono comps
    (create_activation_variables net
      ((create_clustering_variables net
        ((inject_vertices p sigs methyls St.empty).1, [])).1, [])).2
    (create_activation_variables net
      ((create_clustering_variables net
        ((inject_vertices p sigs methyls St.empty).1, [])).1, [])).1).2 ?_
  refine List.Sublist.trans (distance_constraints_mono p net
    (create_activation_variables net
      ((create_clustering_variables net
        ((inject_vertices p sigs methyls St.empty).1, [])).1, [])).2
    (create_clustering_variables net
      ((inject_vertices p sigs methyls St.empty).1, [])).2
    (inject_vertices p sigs methyls St.empty).2 dist
    (respect_matching comps
      (create_activation_variables net
        ((create_clustering_variables net
          ((inject_vertices p sigs methyls St.empty).1, [])).1, [])).2
      (create_activation_variables net
        ((create_clustering_variables net
          ((inject_vertices p sigs methyls St.empty).1, [])).1, [])).1)).2 ?_
  exact (geminal_constraints_mono sigs
    (inject_vertices p sigs methyls St.empty).2 _).2

theorem IsomorphismCSP_inject_sublist (p : CParams) (sigs : List Sig)
    (hedges : List HEdge) (methyls : List Methyl)
    (dist : String → String → ℚ) (ev : Bool) :
    List.Sublist (inject_vertices p sigs methyls St.empty).1.base_clauses
      (IsomorphismCSP p sigs hedges methyls dist ev).1.1.base_clauses :=
  (iso_distance_constraints_mono p hedges
    (inject_vertices p sigs methyls St.empty).2 dist ev
    ((inject_vertices p sigs methyls St.empty).1, [])).2

/-- The property claimed of satisfying assignments: every signature's
table lists exactly its domain and carries exactly one true variable, and
every methyl is claimed by at most one signature. -/
def injectiveAssignment (p : CParams) (sigs : List Sig)
    (methyls : List Methyl) (tbl : AsgTable) (v : Nat → Bool) : Prop :=
  (∀ sg ∈ sigs,
    (sigEntries tbl sg.label).map Prod.fst = domainOf p sg methyls ∧
    (sigEntries tbl sg.label).countP (fun e => v e.2) = 1) ∧
  (∀ m ∈ methyls, sigs.countP
    (fun sg => ((lookupVar tbl sg.label m.label).map v).getD false) ≤ 1)

set_option maxHeartbeats 4000000 in
/-- Soundness of the whole of `inject_vertices`. -/
theorem inject_vertices_sound (p : CParams) (sigs : List Sig)
    (methyls : List Methyl) (v : Nat → Bool)
    (hnds : (sigs.map Sig.label).Nodup)
    (hdom : ∀ sg ∈ sigs, ((domainOf p sg methyls).map Methyl.label).Nodup)
    (hsat : satList v ((inject_vertices p sigs methyls St.empty).1.base_clauses)) :
    injectiveAssignment p sigs methyls
      (inject_vertices p sigs methyls St.empty).2 v := by
  simp only [inject_vertices] at hsat ⊢
  have htblpos : ∀ pr ∈ (sigs.foldl (injectSig p methyls) (St.empty, [])).2,
      ∀ e ∈ pr.2, 1 ≤ e.2 :=
    injectLoop_tblPos p methyls sigs (St.empty, []) (by simp) hdom
  constructor
  · intro sg hsg
    have hs1 : satList v
        ((sigs.foldl (injectSig p methyls) (St.empty, [])).1.base_clauses) := by
      refine satList_of_sublist ?_ hsat
      exact (foldl_mono (g := fun s : St => s)
        (fun s m => at_most_one_mono _ s) methyls _).2
    have h := injectLoop_exactlyOne p methyls v sigs (St.empty, []) sg hsg
      hnds (by simp) hdom hs1
    exact h
  · intro m hm
    have hL := amoFold_sound (L := fun m2 => sigs.filterMap
        (fun sg => (lookupVar (sigs.foldl (injectSig p methyls)
          (St.empty, [])).2 sg.label m2.label).map
            (fun x => ((x : Nat) : Int)))) v methyls
      (sigs.foldl (injectSig p methyls) (St.empty, [])).1 m hm hsat ?hnz
    case hnz =>
      intro l hl
      simp only [List.mem_filterMap, Option.map_eq_some'] at hl
      obtain ⟨sg, hsg, x, hx, rfl⟩ := hl
      have := lookupVar_pos htblpos hx
      omega
    dsimp only at hL
    rw [← List.map_filterMap] at hL
    rw [List.countP_map] at hL
    have hcongr : (sigs.filterMap (fun sg =>
        lookupVar (sigs.foldl (injectSig p methyls)
          (St.empty, [])).2 sg.label m.label)).countP
        ((litHolds v) ∘ (fun x : Nat => ((x : Nat) : Int))) =
        (sigs.filterMap (fun sg =>
        lookupVar (sigs.foldl (injectSig p methyls)
          (St.empty, [])).2 sg.label m.label)).countP (fun x => v x) := by
      apply List.countP_congr
      intro x hx
      simp only [List.mem_filterMap] at hx
      obtain ⟨sg, hsg, hlk⟩ := hx
      have hp := lookupVar_pos htblpos hlk
      simp only [Function.comp_apply, litHolds]
      rw [if_pos (by omega)]
      simp
    rw [hcongr, countP_filterMap_getD] at hL
    exact hL

/-- C2: for every Clustering CSP (or Isomorphism CSP) built over signatures
and a structure, in any satisfying assignment of the emitted formula every
signature is assigned exactly one methyl of its domain `D(s)` (the table
rows are exactly `D(s)` and exactly one of their variables is true) and
every methyl is claimed by at most one signature: the induced map is a
total injective function on its domain. -/
theorem claim_C2 (p : CParams) (sigs : List Sig) (methyls : List Methyl)
    (v : Nat → Bool)
    (hnds : (sigs.map Sig.label).Nodup)
    (hdom : ∀ sg ∈ sigs, ((domainOf p sg methyls).map Methyl.label).Nodup) :
    (∀ (net : Net) (comps : List Comp) (dist : String → String → ℚ),
      satList v (ClusteringCSP p sigs methyls net comps dist).st.base_clauses →
      injectiveAssignment p sigs methyls
        (ClusteringCSP p sigs methyls net comps dist).asg v) ∧
    (∀ (hedges : List HEdge) (dist : String → String → ℚ) (ev : Bool),
      satList v
        (IsomorphismCSP p sigs hedges methyls dist ev).1.1.base_clauses →
      injectiveAssignment p sigs methyls
        (IsomorphismCSP p sigs hedges methyls dist ev).2 v) := by
  constructor
  · intro net comps dist hsat
    exact inject_vertices_sound p sigs methyls v hnds hdom
      (satList_of_sublist
        (ClusteringCSP_inject_sublist p sigs methyls net comps dist) hsat)
  · intro hedges dist ev hsat
    exact inject_vertices_sound p sigs methyls v hnds hdom
      (satList_of_sublist
        (IsomorphismCSP_inject_sublist p sigs hedges methyls dist ev) hsat)

/-- A two-signature, two-methyl example for witnesses. -/
def sigW : Sig :=
  { label := "a", color := ["L"], asg := [], options := [], geminal := none }

/-- Second example signature. -/
def sigW2 : Sig :=
  { label := "b", color := ["L"], asg := [], options := [], geminal := none }

/-- Example methyl. -/
def methylW : Methyl :=
  { label := "m", color := "L", seqid := 7, order := none, added := false }

/-- Second example methyl. -/
def methylW2 : Methyl :=
  { label := "m2", color := "L", seqid := 8, order := none, added := false }

/-- Example valuation: variables 1 and 4 true (signature a ↦ methyl m,
signature b ↦ methyl m2 in the witness CSP). -/
def vW : Nat → Bool := fun n => n == 1 || n == 4

/-- Example empty network. -/
def netW : Net := { nodes := [], edges := [] }

set_option maxHeartbeats 2000000 in
/-- Witness for C2 at a concrete two-signature clustering CSP. -/
theorem claim_C2_witness :
    injectiveAssignment defaultParams [sigW, sigW2] [methylW, methylW2]
      (ClusteringCSP defaultParams [sigW, sigW2] [methylW, methylW2] netW []
        (fun _ _ => 1)).asg vW :=
  (claim_C2 defaultParams [sigW, sigW2] [methylW, methylW2] vW (by decide)
    (by decide)).1 netW [] (fun _ _ => 1) (by decide)

/-! ### Claim C1: the short-range policy of `distance_constraints` -/

/-- The radius ladder of `respect_distance_constraint`: the short cutoff
when the edge is short, else the added cutoff when either methyl is added,
else the nominal cutoff. -/
def radiusLadder (p : CParams) (short amAdded bmAdded : Bool) (d : ℚ) : Bool :=
  if short then decide (d < p.SHORT_RADIUS)
  else if amAdded || bmAdded then decide (d < p.ADDED_RADIUS)
  else decide (d < p.RADIUS)

/-- Modelled from the spec's clause formula for §4.C.4 (one clause per
`mᵢ ∈ D(σᵢ)`, the final disjunction over the admitted `mⱼ`), parameterised
by the policy `shortOf` deciding whether an edge is short-range. -/
def distance_constraints_spec (p : CParams) (net : Net)
    (shortOf : Noe → Noe → Bool) (actTbl : ActTable) (cstTbl : CstTable)
    (asgTbl : AsgTable) (dist : String → String → ℚ) (st : St) : St :=
  net.edges.foldl (fun s e =>
    e.1.clusters.foldl (fun s2 ic =>
      e.2.clusters.foldl (fun s3 jc =>
        if ic == jc then s3
        else
          let b1 : List Int :=
            if net.degree e.1 > 1 || net.degree e.2 > 1
            then [-((dictGet (tblGet actTbl e.1.label) e.2.label : Nat) : Int)]
            else []
          let b2 := if e.1.clusters.length > 1
            then b1 ++ [-((dictGet (tblGet cstTbl e.1.label) ic : Nat) : Int)]
            else b1
          let b3 := if e.2.clusters.length > 1
            then b2 ++ [-((dictGet (tblGet cstTbl e.2.label) jc : Nat) : Int)]
            else b2
          (sigEntries asgTbl ic).foldl (fun s4 am =>
            add_clause (b3 ++ [-((am.2 : Nat) : Int)] ++
              ((sigEntries asgTbl jc).filter (fun bm =>
                !(am.1.label == bm.1.label) &&
                radiusLadder p (shortOf e.1 e.2) am.1.added bm.1.added
                  (dist am.1.label bm.1.label))).map
                (fun bm => ((bm.2 : Nat) : Int))) s4) s3) s2) s) st

theorem foldl_clause_filter (f : α → Bool) (g : α → Int) (xs : List α)
    (cl : List Int) :
    xs.foldl (fun c x => if f x then c ++ [g x] else c) cl =
      cl ++ (xs.filter f).map g := by
  induction xs generalizing cl with
  | nil => simp
  | cons x xs ih =>
    rw [List.foldl_cons]
    by_cases hf : f x = true
    · rw [if_pos hf, ih, List.filter_cons_of_pos hf]
      simp
    · rw [if_neg hf, ih, List.filter_cons_of_neg hf]

theorem respect_distance_constraint_spec_eq (p : CParams) (tbl : AsgTable)
    (alpha beta : String) (dist : String → String → ℚ)
    (base_clause : List Int) (short : Bool) (st : St) :
    respect_distance_constraint p tbl alpha beta dist base_clause short st =
      (sigEntries tbl alpha).foldl (fun s am =>
        add_clause (base_clause ++ [-((am.2 : Nat) : Int)] ++
          ((sigEntries tbl beta).filter (fun bm =>
            !(am.1.label == bm.1.label) &&
            radiusLadder p short am.1.added bm.1.added
              (dist am.1.label bm.1.label))).map
            (fun bm => ((bm.2 : Nat) : Int))) s) st := by
  unfold respect_distance_constraint
  apply List.foldl_ext
  intro s am _
  dsimp only
  congr 1
  refine Eq.trans (List.foldl_ext _ _ _ ?_)
    (foldl_clause_filter (fun bm =>
        !(am.1.label == bm.1.label) &&
        radiusLadder p short am.1.added bm.1.added
          (dist am.1.label bm.1.label))
      (fun bm => ((bm.2 : Nat) : Int)) (sigEntries tbl beta)
      (base_clause ++ [-((am.2 : Nat) : Int)]))
  intro cl bm _
  by_cases h1 : am.1.label == bm.1.label
  · simp [h1, radiusLadder]
  · simp only [h1, Bool.not_false, Bool.true_and, if_neg h1,
      Bool.false_eq_true]
    unfold radiusLadder
    by_cases h2 : short
    · simp only [h2, if_true]
      by_cases h3 : dist am.1.label bm.1.label < p.SHORT_RADIUS
      · simp [h3]
      · simp [h3]
    · simp only [h2, if_false, Bool.false_eq_true]
      by_cases h4 : (am.1.added || bm.1.added) = true
      · simp only [h4, if_true]
        by_cases h3 : dist am.1.label bm.1.label < p.ADDED_RADIUS
        · simp [h3]
        · simp [h3]
      · simp only [h4, if_false]
        by_cases h3 : dist am.1.label bm.1.label < p.RADIUS
        · simp [h3, h4]
        · simp [h3, h4]

/-- The claim as stated: `distance_constraints` uses the short cutoff iff
either endpoint NOE is short-range.  Refuted at a concrete edge whose first
endpoint is long-range and second endpoint short-range, with a distance of
9 Å between the assigned methyls while `SHORT_RADIUS = 8 < 9 < 10 = RADIUS`
(the test configuration): the code admits the pair, the claimed OR policy
does not. -/
theorem claim_C1_counterexample :
    ¬ (distance_constraints
        { RADIUS := 10, ADDED_RADIUS := 10, SHORT_RADIUS := 8,
          FORCE_ASG := false, FORCE_SV := false }
        { nodes := [{ label := "i", short_range := false, clusters := ["A"] },
                    { label := "j", short_range := true, clusters := ["B"] }],
          edges := [({ label := "i", short_range := false, clusters := ["A"] },
                     { label := "j", short_range := true, clusters := ["B"] })] }
        [] [] [("A", [(methylW, 1)]), ("B", [(methylW2, 2)])]
        (fun _ _ => 9) St.empty =
      distance_constraints_spec
        { RADIUS := 10, ADDED_RADIUS := 10, SHORT_RADIUS := 8,
          FORCE_ASG := false, FORCE_SV := false }
        { nodes := [{ label := "i", short_range := false, clusters := ["A"] },
                    { label := "j", short_range := true, clusters := ["B"] }],
          edges := [({ label := "i", short_range := false, clusters := ["A"] },
                     { label := "j", short_range := true, clusters := ["B"] })] }
        (fun i j => i.short_range || j.short_range)
        [] [] [("A", [(methylW, 1)]), ("B", [(methylW2, 2)])]
        (fun _ _ => 9) St.empty) := by
  decide

/-- C1 (amended): in the Clustering CSP's distance constraints an edge
`(i, j)` of the active symmetrization graph is treated as short-range iff
its FIRST endpoint `i` has `short_range` true (sat.py line 557 reads only
`i.short_range`, not the disjunction); with that policy the emitted clauses
are exactly the spec's clause formula with the ladder SHORT when short,
else ADDED when either methyl is added, else RADIUS. -/
theorem claim_C1 (p : CParams) (net : Net) (actTbl : ActTable)
    (cstTbl : CstTable) (asgTbl : AsgTable) (dist : String → String → ℚ)
    (st : St) :
    distance_constraints p net actTbl cstTbl asgTbl dist st =
      distance_constraints_spec p net (fun i _ => i.short_range)
        actTbl cstTbl asgTbl dist st := by
  unfold distance_constraints distance_constraints_spec
  apply List.foldl_ext
  intro s e _
  apply List.foldl_ext
  intro s2 ic _
  apply List.foldl_ext
  intro s3 jc _
  by_cases h : ic == jc
  · simp [h]
  · simp only [h, if_false, Bool.false_eq_true]
    exact respect_distance_constraint_spec_eq p asgTbl ic jc dist _ _ s3

/-! ### Claim C4: the activation-variable table -/

/-- `self.activation_variables[a][b]` as an optional lookup. -/
def lookupAct (tbl : ActTable) (a b : String) : Option Nat :=
  ((tblGet tbl a).find? (fun e => e.1 == b)).map Prod.snd

/-- An edge of the network receives an activation variable unless both of
its endpoints have degree one (sat.py `create_activation_variables`). -/
def edgeElig (net : Net) (e : Noe × Noe) : Bool :=
  !(net.degree e.1 == 1 && net.degree e.2 == 1)

/-- The variables `create_activation_variables` allocates, in edge order:
eligible edges are numbered consecutively from `n + 1`. -/
def actAlloc (q : Noe × Noe → Bool) : List (Noe × Noe) → Nat →
    List ((Noe × Noe) × Nat)
  | [], _ => []
  | e :: es, n =>
    if q e then (e, n + 1) :: actAlloc q es (n + 1) else actAlloc q es n

/-- The contribution of one allocated edge to the neighbour table of the
node labelled `l`. -/
def contrib (l : String) (ex : (Noe × Noe) × Nat) : Option (String × Nat) :=
  if ex.1.1.label == l then some (ex.1.2.label, ex.2)
  else if ex.1.2.label == l then some (ex.1.1.label, ex.2)
  else none

theorem tblGet_tblSet_self (tbl : List (String × List (String × Nat)))
    (k : String) (es : List (String × Nat)) :
    tblGet (tblSet tbl k es) k = es := by
  unfold tblSet
  by_cases h : tbl.any (fun e => e.1 == k) = true
  · rw [if_pos h]
    induction tbl with
    | nil => simp at h
    | cons hd tl ih =>
      rw [List.map_cons]
      by_cases hh : (hd.1 == k) = true
      · rw [if_pos hh]
        unfold tblGet
        rw [List.find?_cons_of_pos _ (by simpa using hh)]
        simp
      · rw [if_neg hh]
        unfold tblGet at ih ⊢
        rw [List.find?_cons_of_neg _ (by simpa using hh)]
        apply ih
        simp only [List.any_cons, Bool.or_eq_true] at h
        rcases h with h | h
        · exact absurd h hh
        · exact h
  · rw [if_neg h]
    unfold tblGet
    rw [List.find?_append]
    have hnone : tbl.find? (fun e => e.1 == k) = none := by
      rw [List.find?_eq_none]
      intro pr hpr
      simp only [List.any_eq_true, not_exists, not_and] at h
      intro hc
      exact h pr hpr hc
    rw [hnone]
    simp

theorem find?_keyUpdate (tl : List (String × List (String × Nat)))
    (k k' : String) (es : List (String × Nat)) (h : k' ≠ k) :
    (tl.map (fun e => if e.1 == k then (e.1, es) else e)).find?
        (fun e => e.1 == k') = tl.find? (fun e => e.1 == k') := by
  induction tl with
  | nil => rfl
  | cons hd tl ih =>
    rw [List.map_cons]
    by_cases hh : (hd.1 == k') = true
    · have hdk : (hd.1 == k) = false := by
        rw [beq_eq_false_iff_ne]
        have : hd.1 = k' := by simpa using hh
        rw [this]
        exact h
      rw [hdk]
      simp only [Bool.false_eq_true, if_false]
      rw [List.find?_cons_of_pos (p := fun e : String × List (String × Nat) => e.1 == k') _ hh,
        List.find?_cons_of_pos (p := fun e : String × List (String × Nat) => e.1 == k') _ hh]
    · have hmk : ¬((if (hd.1 == k) = true then (hd.1, es) else hd).1 == k') =
          true := by
        by_cases hc : (hd.1 == k) = true
        · rw [if_pos hc]
          exact hh
        · rw [if_neg hc]
          exact hh
      rw [List.find?_cons_of_neg (p := fun e : String × List (String × Nat) => e.1 == k') _ hmk,
        List.find?_cons_of_neg (p := fun e : String × List (String × Nat) => e.1 == k') _ hh]
      exact ih

theorem tblGet_tblSet_other (tbl : List (String × List (String × Nat)))
    (k k' : String) (es : List (String × Nat)) (h : k' ≠ k) :
    tblGet (tblSet tbl k es) k' = tblGet tbl k' := by
  unfold tblSet
  by_cases hp : tbl.any (fun e => e.1 == k) = true
  · rw [if_pos hp]
    unfold tblGet
    rw [find?_keyUpdate tbl k k' es h]
  · rw [if_neg hp]
    unfold tblGet
    rw [List.find?_append]
    have hlast : ([(k, es)].find? (fun e => e.1 == k')) = none := by
      rw [List.find?_eq_none]
      intro pr hpr
      simp only [List.mem_singleton] at hpr
      subst hpr
      simp only [beq_iff_eq]
      exact fun hc => h hc.symm
    rcases hfind : tbl.find? (fun e => e.1 == k') with _ | pr
    · simp [hlast]
    · simp [hfind]

theorem dictInsert_fresh {es : List (String × Nat)} {k : String} (x : Nat)
    (h : ∀ e ∈ es, e.1 ≠ k) : dictInsert es k x = es ++ [(k, x)] := by
  unfold dictInsert
  rw [if_neg]
  simp only [List.any_eq_true, not_exists, not_and]
  intro e he
  simpa using h e he

/-- Two network edges describe the same unordered pair of NOE labels. -/
def samePair (a b : Noe × Noe) : Prop :=
  (a.1.label = b.1.label ∧ a.2.label = b.2.label) ∨
  (a.1.label = b.2.label ∧ a.2.label = b.1.label)

instance (a b : Noe × Noe) : Decidable (samePair a b) := by
  unfold samePair
  infer_instance

theorem contrib_cases {l : String} {ex : (Noe × Noe) × Nat}
    {en : String × Nat} (h : contrib l ex = some en) :
    (ex.1.1.label = l ∧ en.1 = ex.1.2.label ∧ en.2 = ex.2) ∨
    (ex.1.2.label = l ∧ en.1 = ex.1.1.label ∧ en.2 = ex.2) := by
  unfold contrib at h
  by_cases h1 : (ex.1.1.label == l) = true
  · rw [if_pos h1] at h
    left
    refine ⟨by simpa using h1, ?_, ?_⟩
    · rw [← Option.some.inj h]
    · rw [← Option.some.inj h]
  · rw [if_neg h1] at h
    by_cases h2 : (ex.1.2.label == l) = true
    · rw [if_pos h2] at h
      right
      refine ⟨by simpa using h2, ?_, ?_⟩
      · rw [← Option.some.inj h]
      · rw [← Option.some.inj h]
    · rw [if_neg h2] at h
      cases h

theorem actAlloc_src (q : Noe × Noe → Bool) :
    ∀ (es : List (Noe × Noe)) (n : Nat) (ex : (Noe × Noe) × Nat),
    ex ∈ actAlloc q es n →
    ex.1 ∈ es ∧ q ex.1 = true ∧ n < ex.2 ∧ ex.2 ≤ n + es.length := by
  intro es
  induction es with
  | nil => simp [actAlloc]
  | cons e es ih =>
    intro n ex hmem
    unfold actAlloc at hmem
    by_cases hq : q e = true
    · rw [if_pos hq] at hmem
      rcases List.mem_cons.1 hmem with rfl | hmem2
      · exact ⟨by simp, hq, by omega,
          by simp only [List.length_cons]; omega⟩
      · obtain ⟨h1, h2, h3, h4⟩ := ih (n + 1) ex hmem2
        exact ⟨by simp [h1], h2, by omega,
          by simp only [List.length_cons]; omega⟩
    · rw [if_neg hq] at hmem
      obtain ⟨h1, h2, h3, h4⟩ := ih n ex hmem
      exact ⟨by simp [h1], h2, h3,
        by simp only [List.length_cons]; omega⟩

theorem actAlloc_complete (q : Noe × Noe → Bool) :
    ∀ (es : List (Noe × Noe)) (n : Nat) (e : Noe × Noe),
    e ∈ es → q e = true → ∃ x, (e, x) ∈ actAlloc q es n := by
  intro es
  induction es with
  | nil => simp
  | cons e0 es ih =>
    intro n e hmem hq
    rcases List.mem_cons.1 hmem with rfl | hmem2
    · refine ⟨n + 1, ?_⟩
      unfold actAlloc
      rw [if_pos hq]
      simp
    · by_cases hq0 : q e0 = true
      · obtain ⟨x, hx⟩ := ih (n + 1) e hmem2 hq
        refine ⟨x, ?_⟩
        unfold actAlloc
        rw [if_pos hq0]
        simp [hx]
      · obtain ⟨x, hx⟩ := ih n e hmem2 hq
        refine ⟨x, ?_⟩
        unfold actAlloc
        rw [if_neg hq0]
        exact hx

theorem actAlloc_vars_nodup (q : Noe × Noe → Bool) :
    ∀ (es : List (Noe × Noe)) (n : Nat),
    ((actAlloc q es n).map Prod.snd).Nodup := by
  intro es
  induction es with
  | nil => simp [actAlloc]
  | cons e es ih =>
    intro n
    unfold actAlloc
    by_cases hq : q e = true
    · rw [if_pos hq]
      simp only [List.map_cons, List.nodup_cons]
      refine ⟨?_, ih (n + 1)⟩
      intro hc
      simp only [List.mem_map] at hc
      obtain ⟨ex, hex, hv⟩ := hc
      have := (actAlloc_src q es (n + 1) ex hex).2.2.1
      omega
    · rw [if_neg hq]
      exact ih n

/-- Characterisation of the `create_activation_variables` fold: the
neighbour table of every label is exactly the contributions of the
allocated edges, numbered consecutively from the entry variable count. -/
theorem actLoop_char (net : Net) :
    ∀ (edges : List (Noe × Noe)) (st : St) (tbl : ActTable)
      (hist : List ((Noe × Noe) × Nat)),
    (∀ e ∈ edges, e.1.label ≠ e.2.label) →
    List.Pairwise (fun a b => ¬ samePair a b) (hist.map Prod.fst ++ edges) →
    (∀ l, tblGet tbl l = hist.filterMap (contrib l)) →
    ∀ l, tblGet (edges.foldl (actStep net) (st, tbl)).2 l =
      (hist ++ actAlloc (edgeElig net) edges st.nvars).filterMap
        (contrib l) := by
  intro edges
  induction edges with
  | nil =>
    intro st tbl hist hself hpair hinv l
    simp only [List.foldl_nil, actAlloc, List.append_nil]
    exact hinv l
  | cons e rest ih =>
    intro st tbl hist hself hpair hinv l
    rw [List.foldl_cons]
    by_cases hq : (net.degree e.1 == 1 && net.degree e.2 == 1) = true
    · have hskip : actStep net (st, tbl) e = (st, tbl) := by
        unfold actStep
        rw [if_pos hq]
      rw [hskip]
      have halloc : actAlloc (edgeElig net) (e :: rest) st.nvars =
          actAlloc (edgeElig net) rest st.nvars := by
        have hq2 : edgeElig net e = false := by
          unfold edgeElig
          rw [hq]
          rfl
        simp [actAlloc, hq2]
      rw [halloc]
      apply ih st tbl hist (fun e2 he2 => hself e2 (by simp [he2]))
      · refine List.Pairwise.sublist ?_ hpair
        refine List.Sublist.append (List.Sublist.refl _) ?_
        exact List.sublist_cons_self e rest
      · exact hinv
    · have hne : e.1.label ≠ e.2.label := hself e (by simp)
      -- freshness of the second label in the first label's entry list
      have hfresh1 : ∀ en ∈ tblGet tbl e.1.label, en.1 ≠ e.2.label := by
        intro en hen hc
        rw [hinv e.1.label] at hen
        simp only [List.mem_filterMap] at hen
        obtain ⟨ex, hex, hcon⟩ := hen
        have hcross : ¬ samePair ex.1 e := by
          rw [List.pairwise_append] at hpair
          exact hpair.2.2 ex.1 (List.mem_map_of_mem Prod.fst hex) e (by simp)
        rcases contrib_cases hcon with ⟨ha, hb, _⟩ | ⟨ha, hb, _⟩
        · exact hcross (Or.inl ⟨ha, by rw [← hb, hc]⟩)
        · exact hcross (Or.inr ⟨by rw [← hb, hc], ha⟩)
      have hfresh2 : ∀ en ∈ tblGet tbl e.2.label, en.1 ≠ e.1.label := by
        intro en hen hc
        rw [hinv e.2.label] at hen
        simp only [List.mem_filterMap] at hen
        obtain ⟨ex, hex, hcon⟩ := hen
        have hcross : ¬ samePair ex.1 e := by
          rw [List.pairwise_append] at hpair
          exact hpair.2.2 ex.1 (List.mem_map_of_mem Prod.fst hex) e (by simp)
        rcases contrib_cases hcon with ⟨ha, hb, _⟩ | ⟨ha, hb, _⟩
        · exact hcross (Or.inr ⟨ha, by rw [← hb, hc]⟩)
        · exact hcross (Or.inl ⟨by rw [← hb, hc], ha⟩)
      have hstep : actStep net (st, tbl) e =
          ({ nvars := st.nvars + 1, nclauses := st.nclauses,
             base_clauses := st.base_clauses, aux_clauses := st.aux_clauses,
             variable_meaning := st.variable_meaning ++
               [(st.nvars + 1, VarMeaning.actv e.1.label e.2.label)] },
           tblSet (tblSet tbl e.1.label
               (tblGet tbl e.1.label ++ [(e.2.label, st.nvars + 1)]))
             e.2.label
             (tblGet tbl e.2.label ++ [(e.1.label, st.nvars + 1)])) := by
        unfold actStep
        rw [if_neg hq]
        simp only [next_variable, set_meaning]
        rw [dictInsert_fresh _ hfresh1]
        rw [tblGet_tblSet_other tbl e.1.label e.2.label _ (Ne.symm hne)]
        rw [dictInsert_fresh _ hfresh2]
      rw [hstep]
      have halloc : actAlloc (edgeElig net) (e :: rest) st.nvars =
          (e, st.nvars + 1) :: actAlloc (edgeElig net) rest (st.nvars + 1) := by
        have hq2 : edgeElig net e = true := by
          unfold edgeElig
          rcases hcond : (net.degree e.1 == 1 && net.degree e.2 == 1) with _ | _
          · rfl
          · exact absurd hcond hq
        simp [actAlloc, hq2]
      rw [halloc]
      have hres := ih
        { nvars := st.nvars + 1, nclauses := st.nclauses,
          base_clauses := st.base_clauses, aux_clauses := st.aux_clauses,
          variable_meaning := st.variable_meaning ++
            [(st.nvars + 1, VarMeaning.actv e.1.label e.2.label)] }
        (tblSet (tblSet tbl e.1.label
            (tblGet tbl e.1.label ++ [(e.2.label, st.nvars + 1)]))
          e.2.label (tblGet tbl e.2.label ++ [(e.1.label, st.nvars + 1)]))
        (hist ++ [(e, st.nvars + 1)])
        (fun e2 he2 => hself e2 (by simp [he2])) ?hp ?hi l
      case hp =>
        have heq : (hist ++ [(e, st.nvars + 1)]).map Prod.fst ++ rest =
            hist.map Prod.fst ++ e :: rest := by
          simp
        rw [heq]
        exact hpair
      case hi =>
        intro l2
        by_cases hl1 : l2 = e.1.label
        · subst hl1
          rw [tblGet_tblSet_other _ _ _ _ hne, tblGet_tblSet_self]
          rw [List.filterMap_append, hinv e.1.label]
          congr 1
          unfold contrib
          rw [List.filterMap_cons]
          simp
        · by_cases hl2 : l2 = e.2.label
          · subst hl2
            rw [tblGet_tblSet_self]
            rw [List.filterMap_append, hinv e.2.label]
            congr 1
            unfold contrib
            rw [List.filterMap_cons]
            have hb1 : (e.1.label == e.2.label) = false := by
              rw [beq_eq_false_iff_ne]
              exact hne
            simp [hb1]
          · rw [tblGet_tblSet_other _ _ _ _ hl2,
              tblGet_tblSet_other _ _ _ _ hl1]
            rw [List.filterMap_append, hinv l2]
            have : List.filterMap (contrib l2) [(e, st.nvars + 1)] = [] := by
              rw [List.filterMap_cons]
              unfold contrib
              have hb1 : (e.1.label == l2) = false := by
                rw [beq_eq_false_iff_ne]
                exact fun hc => hl1 hc.symm
              have hb2 : (e.2.label == l2) = false := by
                rw [beq_eq_false_iff_ne]
                exact fun hc => hl2 hc.symm
              simp [hb1, hb2]
            rw [this]
            simp
      rw [hres]
      simp

theorem samePair_refl (e : Noe × Noe) : samePair e e := Or.inl ⟨rfl, rfl⟩

theorem samePair_symm {a b : Noe × Noe} (h : samePair a b) : samePair b a := by
  rcases h with ⟨h1, h2⟩ | ⟨h1, h2⟩
  · exact Or.inl ⟨h1.symm, h2.symm⟩
  · exact Or.inr ⟨h2.symm, h1.symm⟩

theorem pairwise_nsp_nodup {l : List (Noe × Noe)}
    (h : List.Pairwise (fun a b => ¬ samePair a b) l) : l.Nodup :=
  h.imp (fun hab => fun heq => hab (heq ▸ samePair_refl _))

theorem pairwise_nsp_forall {l : List (Noe × Noe)}
    (h : List.Pairwise (fun a b => ¬ samePair a b) l) {a b : Noe × Noe}
    (ha : a ∈ l) (hb : b ∈ l) (hne : a ≠ b) : ¬ samePair a b := by
  have hsym : Symmetric (fun a b : Noe × Noe => ¬ samePair a b) :=
    fun x y hxy hs => hxy (samePair_symm hs)
  exact List.Pairwise.forall hsym h ha hb hne

theorem find?_unique {p : α → Bool} {a : α} :
    ∀ {l : List α}, a ∈ l → p a = true →
    (∀ b ∈ l, p b = true → b = a) → l.find? p = some a := by
  intro l
  induction l with
  | nil => simp
  | cons h t ih =>
    intro hmem hp huniq
    by_cases hh : p h = true
    · rw [List.find?_cons_of_pos _ hh]
      rw [huniq h (by simp) hh]
    · rw [List.find?_cons_of_neg _ hh]
      rcases List.mem_cons.1 hmem with rfl | hmem2
      · exact absurd hp hh
      · exact ih hmem2 hp (fun b hb hpb => huniq b (by simp [hb]) hpb)

theorem two_le_countP {p : α → Bool} {a b : α} :
    ∀ {l : List α}, a ∈ l → b ∈ l → a ≠ b → p a = true → p b = true →
    2 ≤ l.countP p := by
  intro l
  induction l with
  | nil => simp
  | cons h t ih =>
    intro ha hb hne hpa hpb
    rw [List.countP_cons]
    rcases List.mem_cons.1 ha with rfl | ha2
    · have hbt : b ∈ t := by
        rcases List.mem_cons.1 hb with rfl | hb2
        · exact absurd rfl hne
        · exact hb2
      have : 0 < t.countP p := by
        rw [List.countP_pos_iff]
        exact ⟨b, hbt, hpb⟩
      rw [if_pos hpa]
      omega
    · rcases List.mem_cons.1 hb with rfl | hb2
      · have : 0 < t.countP p := by
          rw [List.countP_pos_iff]
          exact ⟨a, ha2, hpa⟩
        rw [if_pos hpb]
        omega
      · have := ih ha2 hb2 hne hpa hpb
        omega

theorem countP_litHolds_cast {f : α → Nat} (v : Nat → Bool) (xs : List α)
    (hpos : ∀ x ∈ xs, 1 ≤ f x) :
    (xs.map (fun x => ((f x : Nat) : Int))).countP (litHolds v) =
      xs.countP (fun x => v (f x)) := by
  rw [List.countP_map]
  apply List.countP_congr
  intro x hx
  have := hpos x hx
  simp only [Function.comp_apply, litHolds]
  rw [if_pos (by omega)]
  simp

/-- Full characterisation of the activation table built inside the CSP. -/
theorem create_activation_variables_char (net : Net) (st0 : St)
    (hself : ∀ e ∈ net.edges, e.1.label ≠ e.2.label)
    (hpair : List.Pairwise (fun a b => ¬ samePair a b) net.edges) :
    ∀ l, tblGet (create_activation_variables net (st0, [])).2 l =
      (actAlloc (edgeElig net) net.edges st0.nvars).filterMap (contrib l) := by
  intro l
  have h := actLoop_char net net.edges st0 [] [] hself (by simpa using hpair)
    (fun l2 => by rfl) l
  unfold create_activation_variables
  rw [h]
  simp

/-- Eligible edges get an activation variable, recorded symmetrically under
both endpoints. -/
theorem lookupAct_elig (net : Net) (st0 : St)
    (hself : ∀ e ∈ net.edges, e.1.label ≠ e.2.label)
    (hpair : List.Pairwise (fun a b => ¬ samePair a b) net.edges)
    {e : Noe × Noe} {x : Nat}
    (hex : (e, x) ∈ actAlloc (edgeElig net) net.edges st0.nvars) :
    lookupAct (create_activation_variables net (st0, [])).2
        e.1.label e.2.label = some x ∧
    lookupAct (create_activation_variables net (st0, [])).2
        e.2.label e.1.label = some x := by
  obtain ⟨hmem, helig, hlo, hhi⟩ := actAlloc_src (edgeElig net) net.edges
    st0.nvars (e, x) hex
  have hne := hself e hmem
  have huniqEdge : ∀ ex ∈ actAlloc (edgeElig net) net.edges st0.nvars,
      samePair ex.1 e → ex = (e, x) := by
    intro ex hexm hsp
    obtain ⟨hmem2, _, _, _⟩ := actAlloc_src (edgeElig net) net.edges
      st0.nvars ex hexm
    have hedge : ex.1 = e := by
      by_contra hneq
      exact pairwise_nsp_forall hpair hmem2 hmem hneq hsp
    -- same edge value: entries with equal edges coincide, since the
    -- allocated edge list is a sublist of the (nodup) edge list
    have hsubl : List.Sublist
        ((actAlloc (edgeElig net) net.edges st0.nvars).map Prod.fst)
        net.edges := by
      clear hex hexm hmem2 hedge hmem hlo hhi
      generalize st0.nvars = n
      induction net.edges generalizing n with
      | nil => simp [actAlloc]
      | cons e2 es ih =>
        unfold actAlloc
        by_cases hq : edgeElig net e2 = true
        · rw [if_pos hq]
          simpa using List.Sublist.cons₂ e2 (ih _)
        · rw [if_neg hq]
          exact List.Sublist.trans (ih _) (List.sublist_cons_self e2 es)
    have hnd : ((actAlloc (edgeElig net) net.edges st0.nvars).map
        Prod.fst).Nodup := (pairwise_nsp_nodup hpair).sublist hsubl
    have h1 : ex.1 ∈ (actAlloc (edgeElig net) net.edges st0.nvars).map
        Prod.fst := List.mem_map_of_mem Prod.fst hexm
    -- positions with equal mapped edges coincide: use injectivity on a
    -- nodup mapped list
    have hinj := List.inj_on_of_nodup_map (f := Prod.fst) hnd
    exact hinj hexm hex hedge
  constructor
  · unfold lookupAct
    rw [create_activation_variables_char net st0 hself hpair e.1.label]
    rw [find?_unique (a := (e.2.label, x)) ?hmem ?hp ?huniq]
    case hmem =>
      rw [List.mem_filterMap]
      refine ⟨(e, x), hex, ?_⟩
      unfold contrib
      simp
    case hp => simp
    case huniq =>
      intro en hen hkey
      rw [List.mem_filterMap] at hen
      obtain ⟨ex, hexm, hcon⟩ := hen
      have hkey2 : en.1 = e.2.label := by simpa using hkey
      rcases contrib_cases hcon with ⟨ha, hb, hv⟩ | ⟨ha, hb, hv⟩
      · have : ex = (e, x) := huniqEdge ex hexm
          (Or.inl ⟨ha, by rw [← hb, hkey2]⟩)
        rcases en with ⟨en1, en2⟩
        simp only at hkey2 hb hv
        rw [hkey2, hv, this]
      · have : ex = (e, x) := huniqEdge ex hexm
          (Or.inr ⟨by rw [← hb, hkey2], ha⟩)
        rcases en with ⟨en1, en2⟩
        simp only at hkey2 hb hv
        rw [hkey2, hv, this]
    simp
  · unfold lookupAct
    rw [create_activation_variables_char net st0 hself hpair e.2.label]
    rw [find?_unique (a := (e.1.label, x)) ?hmem ?hp ?huniq]
    case hmem =>
      rw [List.mem_filterMap]
      refine ⟨(e, x), hex, ?_⟩
      unfold contrib
      rw [if_neg (by simpa using hne)]
      simp
    case hp => simp
    case huniq =>
      intro en hen hkey
      rw [List.mem_filterMap] at hen
      obtain ⟨ex, hexm, hcon⟩ := hen
      have hkey2 : en.1 = e.1.label := by simpa using hkey
      rcases contrib_cases hcon with ⟨ha, hb, hv⟩ | ⟨ha, hb, hv⟩
      · have : ex = (e, x) := huniqEdge ex hexm
          (Or.inr ⟨ha, by rw [← hb, hkey2]⟩)
        rcases en with ⟨en1, en2⟩
        simp only at hkey2 hb hv
        rw [hkey2, hv, this]
      · have : ex = (e, x) := huniqEdge ex hexm
          (Or.inl ⟨by rw [← hb, hkey2], ha⟩)
        rcases en with ⟨en1, en2⟩
        simp only at hkey2 hb hv
        rw [hkey2, hv, this]
    simp

/-- Edges whose endpoints both have degree one receive no activation
variable. -/
theorem lookupAct_inelig (net : Net) (st0 : St)
    (hself : ∀ e ∈ net.edges, e.1.label ≠ e.2.label)
    (hpair : List.Pairwise (fun a b => ¬ samePair a b) net.edges)
    {e : Noe × Noe} (hmem : e ∈ net.edges)
    (helig : edgeElig net e = false) :
    lookupAct (create_activation_variables net (st0, [])).2
      e.1.label e.2.label = none := by
  unfold lookupAct
  rw [create_activation_variables_char net st0 hself hpair e.1.label]
  have : ((actAlloc (edgeElig net) net.edges st0.nvars).filterMap
      (contrib e.1.label)).find? (fun en => en.1 == e.2.label) = none := by
    rw [List.find?_eq_none]
    intro en hen hkey
    rw [List.mem_filterMap] at hen
    obtain ⟨ex, hexm, hcon⟩ := hen
    obtain ⟨hmem2, helig2, _, _⟩ := actAlloc_src (edgeElig net) net.edges
      st0.nvars ex hexm
    have hkey2 : en.1 = e.2.label := by simpa using hkey
    have hsp : samePair ex.1 e := by
      rcases contrib_cases hcon with ⟨ha, hb, _⟩ | ⟨ha, hb, _⟩
      · exact Or.inl ⟨ha, by rw [← hb, hkey2]⟩
      · exact Or.inr ⟨by rw [← hb, hkey2], ha⟩
    have hedge : ex.1 ≠ e := by
      intro hc
      rw [hc] at helig2
      rw [helig2] at helig
      cases helig
    exact pairwise_nsp_forall hpair hmem2 hmem hedge hsp
  rw [this]
  rfl

theorem amoAloFold_sound {L : α → List Int} (v : Nat → Bool) :
    ∀ (xs : List α) (st : St) (x : α), x ∈ xs →
    satList v ((xs.foldl (fun s y => add_clause (L y) (at_most_one (L y) s))
      st).base_clauses) →
    (∀ l ∈ L x, l ≠ 0) → (L x).countP (litHolds v) = 1 := by
  intro xs
  induction xs with
  | nil => simp
  | cons y ys ih =>
    intro st x hx hsat hnz
    rw [List.foldl_cons] at hsat
    rcases List.mem_cons.1 hx with rfl | hx
    · have hs2 : satList v
          ((add_clause (L x) (at_most_one (L x) st)).base_clauses) := by
        refine satList_of_sublist ?_ hsat
        exact (foldl_mono (g := fun s : St => s)
          (fun s a => StMono.trans (at_most_one_mono (L a) s)
            (add_clause_mono (L a) _)) ys _).2
      have hle := at_most_one_sound (L x) st v hnz
        (satList_of_sublist (add_clause_mono _ _).2 hs2)
      have hcl : clauseHolds v (L x) = true := by
        apply hs2
        simp [add_clause]
      simp only [clauseHolds, List.any_eq_true] at hcl
      obtain ⟨l, hl, hlt⟩ := hcl
      have : 0 < (L x).countP (litHolds v) := by
        rw [List.countP_pos_iff]
        exact ⟨l, hl, hlt⟩
      omega
    · exact ih _ x hx hsat hnz

theorem respect_matching_sound (v : Nat → Bool) :
    ∀ (comps : List Comp) (tbl : ActTable) (st : St) (comp : Comp),
    comp ∈ comps → ¬ (comp.nodes.length < 3) →
    (∀ l, ∀ en ∈ tblGet tbl l, 1 ≤ en.2) →
    satList v ((respect_matching comps tbl st).base_clauses) →
    (∀ l ∈ comp.leftRight.1,
      (tblGet tbl l.label).countP (fun en => v en.2) = 1) ∧
    (∀ r ∈ comp.leftRight.2,
      (tblGet tbl r.label).countP (fun en => v en.2) ≤ 1) := by
  intro comps
  induction comps with
  | nil => simp
  | cons c cs ih =>
    intro tbl st comp hmem h3 htblpos hsat
    unfold respect_matching at hsat
    rw [List.foldl_cons] at hsat
    rcases List.mem_cons.1 hmem with rfl | hmem2
    · have hsat2 : satList v ((if comp.nodes.length < 3 then st
          else comp.leftRight.2.foldl (fun s2 r =>
            at_most_one ((tblGet tbl r.label).map
              (fun e => ((e.2 : Nat) : Int))) s2)
            (comp.leftRight.1.foldl (fun s2 l =>
              add_clause ((tblGet tbl l.label).map
                (fun e => ((e.2 : Nat) : Int)))
                (at_most_one ((tblGet tbl l.label).map
                  (fun e => ((e.2 : Nat) : Int))) s2)) st)).base_clauses) := by
        refine satList_of_sublist ?_ hsat
        exact (foldl_mono (g := fun s : St => s)
          (fun s a => by
            dsimp only
            split
            · exact StMono.refl _
            · refine StMono.trans (foldl_mono (g := fun s : St => s) ?_ _ _)
                (foldl_mono (g := fun s : St => s) ?_ _ _)
              · intro s2 l
                exact StMono.trans (at_most_one_mono _ _) (add_clause_mono _ _)
              · intro s2 r
                exact at_most_one_mono _ _) cs _).2
      rw [if_neg h3] at hsat2
      have hnzl : ∀ (y : Noe), ∀ l2 ∈ (tblGet tbl y.label).map
          (fun e => ((e.2 : Nat) : Int)), l2 ≠ 0 := by
        intro y l2 hl2
        simp only [List.mem_map] at hl2
        obtain ⟨en, hen, rfl⟩ := hl2
        have := htblpos y.label en hen
        omega
      constructor
      · intro l hl
        have hsatL : satList v ((comp.leftRight.1.foldl (fun s2 l =>
            add_clause ((tblGet tbl l.label).map
              (fun e => ((e.2 : Nat) : Int)))
              (at_most_one ((tblGet tbl l.label).map
                (fun e => ((e.2 : Nat) : Int))) s2)) st).base_clauses) := by
          refine satList_of_sublist ?_ hsat2
          exact (foldl_mono (g := fun s : St => s)
            (fun s a => at_most_one_mono _ s) comp.leftRight.2 _).2
        have h := amoAloFold_sound (L := fun y : Noe =>
          (tblGet tbl y.label).map (fun e => ((e.2 : Nat) : Int))) v
          comp.leftRight.1 st l hl hsatL (hnzl l)
        rw [countP_litHolds_cast v _ (fun en hen => htblpos l.label en hen)]
          at h
        exact h
      · intro r hr
        have h := amoFold_sound (L := fun y : Noe =>
          (tblGet tbl y.label).map (fun e => ((e.2 : Nat) : Int))) v
          comp.leftRight.2 _ r hr hsat2 (hnzl r)
        rw [countP_litHolds_cast v _ (fun en hen => htblpos r.label en hen)]
          at h
        exact h
    · exact ih tbl _ comp hmem2 h3 htblpos hsat

/-- An edge is incident (by label) to the node labelled `s`. -/
def incidentL (e : Noe × Noe) (s : String) : Bool :=
  e.1.label == s || e.2.label == s

/-- The truth value of an edge's activation variable under a valuation
(`false` when the edge received no variable). -/
def edgeActive (tbl : ActTable) (v : Nat → Bool) (e : Noe × Noe) : Bool :=
  ((lookupAct tbl e.1.label e.2.label).map v).getD false

/-- The component edges whose activation variable is true. -/
def activeEdges (tbl : ActTable) (v : Nat → Bool) (comp : Comp) :
    List (Noe × Noe) :=
  comp.edges.filter (edgeActive tbl v)

/-- A list of edges is a matching when no two distinct edges share an
endpoint label. -/
def isMatching (es : List (Noe × Noe)) : Prop :=
  ∀ e ∈ es, ∀ e2 ∈ es, e ≠ e2 →
    e.1.label ≠ e2.1.label ∧ e.1.label ≠ e2.2.label ∧
    e.2.label ≠ e2.1.label ∧ e.2.label ≠ e2.2.label

instance (es : List (Noe × Noe)) : Decidable (isMatching es) := by
  unfold isMatching
  infer_instance

theorem actAlloc_map_fst (q : Noe × Noe → Bool) :
    ∀ (es : List (Noe × Noe)) (n : Nat),
    (actAlloc q es n).map Prod.fst = es.filter q := by
  intro es
  induction es with
  | nil => intro n; rfl
  | cons e es ih =>
    intro n
    unfold actAlloc
    by_cases hq : q e = true
    · rw [if_pos hq, List.filter_cons_of_pos hq, List.map_cons, ih]
    · rw [if_neg hq, List.filter_cons_of_neg (by simpa using hq), ih]

theorem sum_map_ite_count (p : α → Bool) :
    ∀ l : List α,
    (l.map (fun a => if p a then 1 else 0)).sum = l.countP p := by
  intro l
  induction l with
  | nil => rfl
  | cons a l ih =>
    rw [List.map_cons, List.sum_cons, List.countP_cons, ih]
    by_cases hp : p a = true
    · rw [if_pos hp]
      omega
    · rw [if_neg hp]
      omega

theorem sum_map_add_nat (f g : α → Nat) :
    ∀ l : List α, (l.map (fun a => f a + g a)).sum
      = (l.map f).sum + (l.map g).sum := by
  intro l
  induction l with
  | nil => rfl
  | cons a l ih =>
    simp only [List.map_cons, List.sum_cons, ih]
    omega

theorem sum_map_one : ∀ l : List α,
    (l.map (fun _ => 1)).sum = l.length := by
  intro l
  induction l with
  | nil => rfl
  | cons a l ih =>
    rw [List.map_cons, List.sum_cons, ih, List.length_cons]
    omega

theorem sum_map_zero : ∀ l : List α,
    (l.map (fun _ => (0 : Nat))).sum = 0 := by
  intro l
  induction l with
  | nil => rfl
  | cons a l ih => simp [ih]

/-- Double counting of an incidence relation between two lists. -/
theorem rel_sum_swap (R : α → β → Bool) (B : List β) :
    ∀ A : List α, (A.map (fun a => B.countP (R a))).sum
      = (B.map (fun b => A.countP (fun a => R a b))).sum := by
  intro A
  induction A with
  | nil =>
    rw [List.map_nil, List.sum_nil]
    have h : B.map (fun b => ([] : List α).countP (fun a => R a b))
        = B.map (fun _ => (0 : Nat)) := by
      apply List.map_congr_left
      intro b _
      rfl
    rw [h, sum_map_zero]
  | cons a A ih =>
    rw [List.map_cons, List.sum_cons, ih]
    have h : B.map (fun b => (a :: A).countP (fun x => R x b))
        = B.map (fun b =>
            (if R a b then 1 else 0) + A.countP (fun x => R x b)) := by
      apply List.map_congr_left
      intro b _
      rw [List.countP_cons]
      by_cases hp : R a b = true
      · rw [if_pos hp]
        omega
      · rw [if_neg hp]
        omega
    rw [h, sum_map_add_nat (fun b => if R a b then 1 else 0)
      (fun b => A.countP (fun x => R x b)), sum_map_ite_count]

/-- If an incidence relation between two lists is exactly-one in both
directions, the lists have the same length. -/
theorem length_eq_of_counts (R : α → β → Bool) (A : List α) (B : List β)
    (hrow : ∀ a ∈ A, B.countP (R a) = 1)
    (hcol : ∀ b ∈ B, A.countP (fun a => R a b) = 1) :
    A.length = B.length := by
  have h1 : (A.map (fun a => B.countP (R a))).sum = A.length := by
    rw [List.map_congr_left hrow, sum_map_one]
  have h2 : (B.map (fun b => A.countP (fun a => R a b))).sum = B.length := by
    rw [List.map_congr_left hcol, sum_map_one]
  have h3 := rel_sum_swap R B A
  omega

/-- Counting over a sublist agrees with the full (duplicate-free) list when
every satisfying element already lies in the sublist. -/
theorem countP_sublist_eq {s t : List α} (p : α → Bool)
    (hsub : s.Sublist t) (hnd : t.Nodup)
    (hall : ∀ e ∈ t, p e = true → e ∈ s) :
    s.countP p = t.countP p := by
  apply Nat.le_antisymm
  · exact hsub.countP_le p
  · rw [List.countP_eq_length_filter, List.countP_eq_length_filter]
    have hfsub : (t.filter p) ⊆ s.filter p := by
      intro e he
      rw [List.mem_filter] at he ⊢
      exact ⟨hall e he.1 he.2, he.2⟩
    have hfnd : (t.filter p).Nodup := hnd.filter p
    exact (List.subperm_of_subset hfnd hfsub).length_le

theorem countP_beq_nodup {s : String} :
    ∀ {l : List String}, l.Nodup → s ∈ l →
    l.countP (fun t => s == t) = 1 := by
  intro l
  induction l with
  | nil => simp
  | cons a l ih =>
    intro hnd hmem
    rw [List.countP_cons]
    rcases List.mem_cons.1 hmem with rfl | hmem2
    · rw [if_pos (by simp)]
      have hz : l.countP (fun t => s == t) = 0 := by
        rw [List.countP_eq_zero]
        intro t ht hc
        have hst : s = t := by simpa using hc
        exact (List.nodup_cons.1 hnd).1 (hst ▸ ht)
      omega
    · have hne : s ≠ a := by
        intro hc
        exact (List.nodup_cons.1 hnd).1 (hc ▸ hmem2)
      rw [if_neg (by simpa using hne),
        ih (List.nodup_cons.1 hnd).2 hmem2]

/-- A node list with duplicate-free labels contains exactly one node of a
given present label. -/
theorem countP_label_one {xs : List Noe} {s : String}
    (hnd : (xs.map Noe.label).Nodup) (hmem : s ∈ xs.map Noe.label) :
    xs.countP (fun u => s == u.label) = 1 := by
  have h := countP_beq_nodup hnd hmem
  rw [List.countP_map] at h
  simpa [Function.comp] using h

theorem contrib_act_bool (v : Nat → Bool) (s : String)
    (ex : (Noe × Noe) × Nat) :
    ((contrib s ex).map (fun en => v en.2)).getD false
      = (incidentL ex.1 s && v ex.2) := by
  by_cases h1 : (ex.1.1.label == s) = true
  · simp [contrib, incidentL, h1]
  · rw [Bool.not_eq_true] at h1
    by_cases h2 : (ex.1.2.label == s) = true
    · simp [contrib, incidentL, h1, h2]
    · rw [Bool.not_eq_true] at h2
      simp [contrib, incidentL, h1, h2]

/-- Every entry of the activation table is a positive variable. -/
theorem act_tbl_pos (net : Net) (st0 : St)
    (hself : ∀ e ∈ net.edges, e.1.label ≠ e.2.label)
    (hpair : List.Pairwise (fun a b => ¬ samePair a b) net.edges) :
    ∀ l, ∀ en ∈ tblGet (create_activation_variables net (st0, [])).2 l,
      1 ≤ en.2 := by
  intro l en hen
  rw [create_activation_variables_char net st0 hself hpair l] at hen
  rw [List.mem_filterMap] at hen
  obtain ⟨ex, hexm, hcon⟩ := hen
  have hsrc := (actAlloc_src (edgeElig net) net.edges st0.nvars ex hexm).2.2.1
  rcases contrib_cases hcon with ⟨_, _, hv⟩ | ⟨_, _, hv⟩ <;> omega

/-- The number of true entries of a node's activation table equals the
number of active eligible network edges incident to the node. -/
theorem act_count_char (net : Net) (st0 : St)
    (hself : ∀ e ∈ net.edges, e.1.label ≠ e.2.label)
    (hpair : List.Pairwise (fun a b => ¬ samePair a b) net.edges)
    (v : Nat → Bool) (s : String) :
    (tblGet (create_activation_variables net (st0, [])).2 s).countP
        (fun en => v en.2) =
      net.edges.countP (fun e =>
        (incidentL e s &&
          edgeActive (create_activation_variables net (st0, [])).2 v e) &&
        edgeElig net e) := by
  rw [create_activation_variables_char net st0 hself hpair s,
    countP_filterMap_getD]
  have h1 : (actAlloc (edgeElig net) net.edges st0.nvars).countP
      (fun ex => ((contrib s ex).map (fun en => v en.2)).getD false)
      = (actAlloc (edgeElig net) net.edges st0.nvars).countP
      (fun ex => incidentL ex.1 s &&
        edgeActive (create_activation_variables net (st0, [])).2 v ex.1) := by
    apply List.countP_congr
    intro ex hex
    have hx : (ex.1, ex.2) ∈ actAlloc (edgeElig net) net.edges st0.nvars := by
      simpa using hex
    have hl := (lookupAct_elig net st0 hself hpair hx).1
    have heq : edgeActive (create_activation_variables net (st0, [])).2 v
        ex.1 = v ex.2 := by
      unfold edgeActive
      rw [hl]
      rfl
    rw [contrib_act_bool, heq]
  rw [h1]
  have h2 : (actAlloc (edgeElig net) net.edges st0.nvars).countP
      (fun ex => incidentL ex.1 s &&
        edgeActive (create_activation_variables net (st0, [])).2 v ex.1)
      = ((actAlloc (edgeElig net) net.edges st0.nvars).map Prod.fst).countP
      (fun e => incidentL e s &&
        edgeActive (create_activation_variables net (st0, [])).2 v e) := by
    rw [List.countP_map]
    rfl
  rw [h2, actAlloc_map_fst, List.countP_filter]

/-- Components with fewer than three nodes contribute no matching
constraints. -/
theorem respect_matching_skip :
    ∀ (comps : List Comp) (tbl : ActTable) (st : St),
    (∀ c ∈ comps, c.nodes.length < 3) →
    respect_matching comps tbl st = st := by
  intro comps
  induction comps with
  | nil => intro tbl st h; rfl
  | cons c cs ih =>
    intro tbl st h
    unfold respect_matching
    rw [List.foldl_cons]
    dsimp only
    rw [if_pos (h c (by simp))]
    exact ih tbl st (fun c2 hc2 => h c2 (by simp [hc2]))

/-- The combinatorial core of claim C4: with exactly one active table entry
per left node and at most one per right node, the active edges of a
component form a matching of the size of the left side. -/
theorem matching_core (tbl : ActTable) (v : Nat → Bool) (net : Net)
    (comp : Comp) (left right : List Noe)
    (hnd : net.edges.Nodup)
    (hsub : comp.edges.Sublist net.edges)
    (helig : ∀ e ∈ comp.edges, edgeElig net e = true)
    (hclosed : ∀ e ∈ net.edges, ∀ u ∈ comp.nodes,
      (e.1.label = u.label ∨ e.2.label = u.label) → e ∈ comp.edges)
    (hLsub : ∀ u ∈ left, u ∈ comp.nodes)
    (hRsub : ∀ u ∈ right, u ∈ comp.nodes)
    (hLnd : (left.map Noe.label).Nodup)
    (hdisj : ∀ s ∈ left.map Noe.label, s ∉ right.map Noe.label)
    (hbi : ∀ e ∈ comp.edges,
      (e.1.label ∈ left.map Noe.label ∧
        e.2.label ∈ right.map Noe.label) ∨
      (e.1.label ∈ right.map Noe.label ∧
        e.2.label ∈ left.map Noe.label))
    (htc : ∀ s : String,
      (tblGet tbl s).countP (fun en => v en.2) =
        net.edges.countP (fun e =>
          (incidentL e s && edgeActive tbl v e) && edgeElig net e))
    (hone : ∀ u ∈ left,
      (tblGet tbl u.label).countP (fun en => v en.2) = 1)
    (hle : ∀ u ∈ right,
      (tblGet tbl u.label).countP (fun en => v en.2) ≤ 1) :
    isMatching (activeEdges tbl v comp) ∧
    (activeEdges tbl v comp).length = left.length := by
  have hcnt : ∀ u ∈ comp.nodes,
      (activeEdges tbl v comp).countP (fun x => incidentL x u.label) =
        (tblGet tbl u.label).countP (fun en => v en.2) := by
    intro u hu
    rw [htc u.label]
    unfold activeEdges
    rw [List.countP_filter]
    have h1 : comp.edges.countP
        (fun e => incidentL e u.label && edgeActive tbl v e) =
        comp.edges.countP (fun e =>
          (incidentL e u.label && edgeActive tbl v e) &&
            edgeElig net e) := by
      apply List.countP_congr
      intro e he
      rw [helig e he, Bool.and_true]
    rw [h1]
    apply countP_sublist_eq _ hsub hnd
    intro e he hp
    simp only [Bool.and_eq_true] at hp
    obtain ⟨⟨hinc, _⟩, _⟩ := hp
    unfold incidentL at hinc
    rw [Bool.or_eq_true] at hinc
    apply hclosed e he u hu
    rcases hinc with h | h
    · exact Or.inl (by simpa using h)
    · exact Or.inr (by simpa using h)
  have hcolL : ∀ u ∈ left, (activeEdges tbl v comp).countP
      (fun x => incidentL x u.label) = 1 := by
    intro u hu
    rw [hcnt u (hLsub u hu)]
    exact hone u hu
  have hcolR : ∀ u ∈ right, (activeEdges tbl v comp).countP
      (fun x => incidentL x u.label) ≤ 1 := by
    intro u hu
    rw [hcnt u (hRsub u hu)]
    exact hle u hu
  have hrow : ∀ e ∈ activeEdges tbl v comp,
      left.countP (fun u => incidentL e u.label) = 1 := by
    intro e he
    have hco : e ∈ comp.edges := List.mem_of_mem_filter he
    rcases hbi e hco with ⟨h1, h2⟩ | ⟨h1, h2⟩
    · have hcg : left.countP (fun u => incidentL e u.label)
          = left.countP (fun u => e.1.label == u.label) := by
        apply List.countP_congr
        intro u hu
        unfold incidentL
        have hno : (e.2.label == u.label) = false := by
          rw [beq_eq_false_iff_ne]
          intro hc
          exact hdisj u.label (List.mem_map_of_mem Noe.label hu) (hc ▸ h2)
        rw [hno, Bool.or_false]
      rw [hcg]
      exact countP_label_one hLnd h1
    · have hcg : left.countP (fun u => incidentL e u.label)
          = left.countP (fun u => e.2.label == u.label) := by
        apply List.countP_congr
        intro u hu
        unfold incidentL
        have hno : (e.1.label == u.label) = false := by
          rw [beq_eq_false_iff_ne]
          intro hc
          exact hdisj u.label (List.mem_map_of_mem Noe.label hu) (hc ▸ h1)
        rw [hno, Bool.false_or]
      rw [hcg]
      exact countP_label_one hLnd h2
  constructor
  · intro e he e2 he2 hne
    have key : ∀ s : String,
        (e.1.label = s ∨ e.2.label = s) →
        (e2.1.label = s ∨ e2.2.label = s) → False := by
      intro s hs1 hs2
      have hinc1 : incidentL e s = true := by
        unfold incidentL
        rcases hs1 with h | h <;> simp [h]
      have hinc2 : incidentL e2 s = true := by
        unfold incidentL
        rcases hs2 with h | h <;> simp [h]
      have h2le : 2 ≤ (activeEdges tbl v comp).countP
          (fun x => incidentL x s) :=
        two_le_countP he he2 hne hinc1 hinc2
      have hco : e ∈ comp.edges := List.mem_of_mem_filter he
      have hsmem : s ∈ left.map Noe.label ∨ s ∈ right.map Noe.label := by
        rcases hbi e hco with ⟨h1, h2⟩ | ⟨h1, h2⟩ <;>
          rcases hs1 with h | h
        · exact Or.inl (h ▸ h1)
        · exact Or.inr (h ▸ h2)
        · exact Or.inr (h ▸ h1)
        · exact Or.inl (h ▸ h2)
      rcases hsmem with hsm | hsm
      · rw [List.mem_map] at hsm
        obtain ⟨u, hu, hul⟩ := hsm
        have hc1 := hcolL u hu
        rw [hul] at hc1
        omega
      · rw [List.mem_map] at hsm
        obtain ⟨u, hu, hul⟩ := hsm
        have hc1 := hcolR u hu
        rw [hul] at hc1
        omega
    refine ⟨?_, ?_, ?_, ?_⟩
    · intro hc
      exact key e2.1.label (Or.inl hc) (Or.inl rfl)
    · intro hc
      exact key e2.2.label (Or.inl hc) (Or.inr rfl)
    · intro hc
      exact key e2.1.label (Or.inr hc) (Or.inl rfl)
    · intro hc
      exact key e2.2.label (Or.inr hc) (Or.inr rfl)
  · exact length_eq_of_counts (fun x u => incidentL x u.label)
      (activeEdges tbl v comp) left hrow hcolL

/-- **C4.** In any satisfying assignment of a Clustering CSP whose
construction succeeds, the active-true edges form a matching within each
connected component of the active symmetrization graph, of size equal to
the smaller bipartite side (`= mcm_size` by the runtime assert); edges that
are their own two-node component get no activation variable, and
`respect_matching` skips every component of fewer than three nodes. -/
theorem claim_C4 (p : CParams) (sigs : List Sig) (methyls : List Methyl)
    (net : Net) (comps : List Comp) (dist : String → String → ℚ)
    (v : Nat → Bool)
    (hself : ∀ e ∈ net.edges, e.1.label ≠ e.2.label)
    (hpair : List.Pairwise (fun a b => ¬ samePair a b) net.edges)
    (hsat : satList v
      (ClusteringCSP p sigs methyls net comps dist).st.base_clauses) :
    (∀ e ∈ net.edges, edgeElig net e = false →
      lookupAct (ClusteringCSP p sigs methyls net comps dist).act
        e.1.label e.2.label = none) ∧
    (∀ (comps2 : List Comp) (tbl : ActTable) (st : St),
      (∀ c ∈ comps2, c.nodes.length < 3) →
      respect_matching comps2 tbl st = st) ∧
    (∀ comp ∈ comps, ¬ comp.nodes.length < 3 →
      comp.edges.Sublist net.edges →
      (∀ e ∈ comp.edges, edgeElig net e = true) →
      (∀ e ∈ net.edges, ∀ u ∈ comp.nodes,
        (e.1.label = u.label ∨ e.2.label = u.label) → e ∈ comp.edges) →
      (∀ u ∈ comp.setsA, u ∈ comp.nodes) →
      (∀ u ∈ comp.setsB, u ∈ comp.nodes) →
      (comp.setsA.map Noe.label).Nodup →
      (comp.setsB.map Noe.label).Nodup →
      (∀ s ∈ comp.setsA.map Noe.label, s ∉ comp.setsB.map Noe.label) →
      (∀ e ∈ comp.edges,
        (e.1.label ∈ comp.setsA.map Noe.label ∧
          e.2.label ∈ comp.setsB.map Noe.label) ∨
        (e.1.label ∈ comp.setsB.map Noe.label ∧
          e.2.label ∈ comp.setsA.map Noe.label)) →
      comp.mcm_size = comp.leftRight.1.length →
      isMatching (activeEdges
        (ClusteringCSP p sigs methyls net comps dist).act v comp) ∧
      (activeEdges (ClusteringCSP p sigs methyls net comps dist).act v
        comp).length = comp.mcm_size) := by
  have hact : (ClusteringCSP p sigs methyls net comps dist).act =
      (create_activation_variables net ((create_clustering_variables net
        ((inject_vertices p sigs methyls St.empty).1, [])).1, [])).2 := rfl
  refine ⟨?_, ?_, ?_⟩
  · intro e hmem helig
    rw [hact]
    exact lookupAct_inelig net _ hself hpair hmem helig
  · exact respect_matching_skip
  · rw [hact]
    intro comp hcm h3 hsubE helig hclosed hAsub hBsub hAnd hBnd hdisjAB
      hbiAB hmcm
    set st0 := (create_clustering_variables net
      ((inject_vertices p sigs methyls St.empty).1, [])).1 with hst0
    set cav := create_activation_variables net (st0, []) with hcav
    have hsat2 : satList v
        ((respect_matching comps cav.2 cav.1).base_clauses) := by
      refine satList_of_sublist ?_ hsat
      have hmono : StMono (respect_matching comps cav.2 cav.1)
          (ClusteringCSP p sigs methyls net comps dist).st :=
        StMono.trans (distance_constraints_mono p net cav.2
          (create_clustering_variables net
            ((inject_vertices p sigs methyls St.empty).1, [])).2
          (inject_vertices p sigs methyls St.empty).2 dist _)
          (geminal_constraints_mono sigs
            (inject_vertices p sigs methyls St.empty).2 _)
      exact hmono.2
    have htblpos : ∀ l, ∀ en ∈ tblGet cav.2 l, 1 ≤ en.2 := by
      rw [hcav]
      exact act_tbl_pos net st0 hself hpair
    have hrs := respect_matching_sound v comps cav.2 cav.1 comp hcm h3
      htblpos hsat2
    have htc : ∀ s : String,
        (tblGet cav.2 s).countP (fun en => v en.2) =
          net.edges.countP (fun e =>
            (incidentL e s && edgeActive cav.2 v e) &&
              edgeElig net e) := by
      rw [hcav]
      exact act_count_char net st0 hself hpair v
    have hlr : comp.leftRight = (comp.setsA, comp.setsB) ∨
        comp.leftRight = (comp.setsB, comp.setsA) := by
      unfold Comp.leftRight
      by_cases hc : comp.setsA.length > comp.setsB.length
      · rw [if_pos hc]
        exact Or.inr rfl
      · rw [if_neg hc]
        exact Or.inl rfl
    have hLsub : ∀ u ∈ comp.leftRight.1, u ∈ comp.nodes := by
      rcases hlr with h | h
      · rw [h]
        exact hAsub
      · rw [h]
        exact hBsub
    have hRsub : ∀ u ∈ comp.leftRight.2, u ∈ comp.nodes := by
      rcases hlr with h | h
      · rw [h]
        exact hBsub
      · rw [h]
        exact hAsub
    have hLnd : (comp.leftRight.1.map Noe.label).Nodup := by
      rcases hlr with h | h
      · rw [h]
        exact hAnd
      · rw [h]
        exact hBnd
    have hdisj : ∀ s ∈ comp.leftRight.1.map Noe.label,
        s ∉ comp.leftRight.2.map Noe.label := by
      rcases hlr with h | h
      · rw [h]
        exact hdisjAB
      · rw [h]
        intro s hsB hsA
        exact hdisjAB s hsA hsB
    have hbi : ∀ e ∈ comp.edges,
        (e.1.label ∈ comp.leftRight.1.map Noe.label ∧
          e.2.label ∈ comp.leftRight.2.map Noe.label) ∨
        (e.1.label ∈ comp.leftRight.2.map Noe.label ∧
          e.2.label ∈ comp.leftRight.1.map Noe.label) := by
      rcases hlr with h | h
      · rw [h]
        exact hbiAB
      · rw [h]
        intro e he
        exact (hbiAB e he).symm
    have hcore := matching_core cav.2 v net comp comp.leftRight.1
      comp.leftRight.2 (pairwise_nsp_nodup hpair) hsubE helig hclosed
      hLsub hRsub hLnd hdisj hbi htc hrs.1 hrs.2
    refine ⟨hcore.1, ?_⟩
    rw [hmcm]
    exact hcore.2

/-- Concrete NOE nodes for the C4 witness: a path `n1 - n2 - n3`. -/
def noeW1 : Noe := { label := "n1", short_range := false, clusters := ["A"] }

def noeW2 : Noe := { label := "n2", short_range := false, clusters := ["B"] }

def noeW3 : Noe := { label := "n3", short_range := false, clusters := ["C"] }

/-- A three-node path network. -/
def netW4 : Net :=
  { nodes := [noeW1, noeW2, noeW3],
    edges := [(noeW1, noeW2), (noeW2, noeW3)] }

/-- Its single connected component with the bipartition `networkx`
computes (`{n2}` versus `{n1, n3}`) and matching number 1. -/
def compW4 : Comp :=
  { nodes := [noeW1, noeW2, noeW3],
    edges := [(noeW1, noeW2), (noeW2, noeW3)],
    setsA := [noeW2], setsB := [noeW1, noeW3], mcm_size := 1 }

/-- A valuation activating the first edge only. -/
def vW4 : Nat → Bool := fun n => n == 1

set_option maxHeartbeats 2000000 in
/-- Witness for C4: on the concrete path network the hypotheses hold, and
the single active edge is a matching of size `mcm_size = 1`. -/
theorem claim_C4_witness :
    (∀ e ∈ netW4.edges, e.1.label ≠ e.2.label) ∧
    List.Pairwise (fun a b => ¬ samePair a b) netW4.edges ∧
    satList vW4 (ClusteringCSP defaultParams [] [] netW4 [compW4]
      (fun _ _ => 1)).st.base_clauses ∧
    (isMatching (activeEdges (ClusteringCSP defaultParams [] [] netW4
        [compW4] (fun _ _ => 1)).act vW4 compW4) ∧
      (activeEdges (ClusteringCSP defaultParams [] [] netW4 [compW4]
        (fun _ _ => 1)).act vW4 compW4).length = compW4.mcm_size) := by
  refine ⟨by decide, by decide, by decide, ?_⟩
  exact (claim_C4 defaultParams [] [] netW4 [compW4] (fun _ _ => 1) vW4
    (by decide) (by decide) (by decide)).2.2 compW4 (by simp)
    (by decide) (List.Sublist.refl _) (by decide) (by decide) (by decide)
    (by decide) (by decide) (by decide) (by decide) (by decide) (by decide)

/-! ### `Formula.enumerate` (claim C3)

The enumeration loop of sat.py lines 95-161 as a transition relation.  The
state carries the base clauses, the set of signatures whose support is not
yet fully enumerated, and the supports found so far.  The external solver
is an oracle: a SAT transition carries an actual model, an UNSAT
transition carries the fact that every model of the current clauses sets
all meaning-carrying variables false (covering both a genuine UNSAT answer
and Python's falsy treatment of an empty `result` list). -/

/-- The mutable data of the enumeration loop: `self.base_clauses`,
`unfinished` and `support`. -/
structure EState where
  base : List (List Int)
  unfinished : List String
  support : String → List String

/-- The auxiliary clauses `[-asgvar[focus][seen]] for seen in
support[focus]` posted before a solver call. -/
def auxOf (var : String → String → Nat) (focus : String)
    (sup : List String) : List (List Int) :=
  sup.map (fun m => [-(((var focus m : Nat) : Int))])

/-- The locking clause `[asgvar[focus][s] for s in support[focus]]`. -/
def lockClause (var : String → String → Nat) (focus : String)
    (sup : List String) : List Int :=
  sup.map (fun m => ((var focus m : Nat) : Int))

/-- `support[alpha].add(beta)` over all positive assignment variables of a
model. -/
def updSupport (dom : String → List String)
    (var : String → String → Nat) (v : Nat → Bool)
    (sup : String → List String) : String → List String :=
  fun s => sup s ++ (dom s).filter
    (fun m => v (var s m) && !(decide (m ∈ sup s)))

/-- One iteration of the `while True` loop of `Formula.enumerate`. -/
inductive EStep (dom : String → List String)
    (var : String → String → Nat) (mvars : List Nat) :
    EState → EState → Prop
  | sat (st : EState) (focus : String) (v : Nat → Bool)
      (hfoc : focus ∈ st.unfinished)
      (hsat : satList v (st.base ++ auxOf var focus (st.support focus)))
      (hne : mvars.any v = true) :
      EStep dom var mvars st
        { base := st.base, unfinished := st.unfinished,
          support := updSupport dom var v st.support }
  | unsat (st : EState) (focus : String)
      (hfoc : focus ∈ st.unfinished)
      (hun : ∀ v : Nat → Bool,
        satList v (st.base ++ auxOf var focus (st.support focus)) →
        mvars.any v = false) :
      EStep dom var mvars st
        { base := st.base ++ [lockClause var focus (st.support focus)],
          unfinished := st.unfinished.erase focus,
          support := st.support }

/-- A trace of the enumeration loop. -/
inductive EReach (dom : String → List String)
    (var : String → String → Nat) (mvars : List Nat) :
    EState → EState → Prop
  | refl (st : EState) : EReach dom var mvars st st
  | head {st1 st2 st3 : EState} (h : EStep dom var mvars st1 st2)
      (t : EReach dom var mvars st2 st3) : EReach dom var mvars st1 st3

/-- The state on entry to the loop: the base clauses, all signatures
unfinished, all supports empty. -/
def initState (sigs : List String) (base0 : List (List Int)) : EState :=
  { base := base0, unfinished := sigs, support := fun _ => [] }

theorem estep_base_sublist {dom : String → List String}
    {var : String → String → Nat} {mvars : List Nat} {st st' : EState}
    (h : EStep dom var mvars st st') : st.base.Sublist st'.base := by
  cases h with
  | sat => exact List.Sublist.refl _
  | unsat => exact List.sublist_append_left _ _

theorem ereach_base_sublist {dom : String → List String}
    {var : String → String → Nat} {mvars : List Nat} {st st' : EState}
    (h : EReach dom var mvars st st') : st.base.Sublist st'.base := by
  induction h with
  | refl => exact List.Sublist.refl _
  | head hs _ ih => exact List.Sublist.trans (estep_base_sublist hs) ih

theorem estep_support_sub {dom : String → List String}
    {var : String → String → Nat} {mvars : List Nat} {st st' : EState}
    (h : EStep dom var mvars st st') :
    ∀ s, st.support s ⊆ st'.support s := by
  cases h with
  | sat =>
    intro s
    exact List.subset_append_left _ _
  | unsat =>
    intro s
    exact fun x hx => hx

theorem ereach_support_sub {dom : String → List String}
    {var : String → String → Nat} {mvars : List Nat} {st st' : EState}
    (h : EReach dom var mvars st st') :
    ∀ s, st.support s ⊆ st'.support s := by
  induction h with
  | refl => exact fun s x hx => hx
  | head hs _ ih =>
    exact fun s => List.Subset.trans (estep_support_sub hs s) (ih s)

theorem estep_unfinished_sub {dom : String → List String}
    {var : String → String → Nat} {mvars : List Nat} {st st' : EState}
    (h : EStep dom var mvars st st') :
    st'.unfinished ⊆ st.unfinished := by
  cases h with
  | sat => exact fun x hx => hx
  | unsat => exact fun x hx => List.mem_of_mem_erase hx

/-- A model of the current clauses all of whose positive assignment pairs
have been recorded in the supports. -/
def GoodModel (sigs : List String) (dom : String → List String)
    (var : String → String → Nat) (st : EState) (v : Nat → Bool) : Prop :=
  satList v st.base ∧
  ∀ u ∈ sigs, ∀ m ∈ dom u, v (var u m) = true → m ∈ st.support u

/-- The loop invariant: every signature's domain clause is present, the
unfinished set holds signatures, supports stay within domains, and every
support member is witnessed by a recorded model. -/
def EInv (sigs : List String) (dom : String → List String)
    (var : String → String → Nat) (st : EState) : Prop :=
  (∀ s ∈ sigs, ((dom s).map (fun m => ((var s m : Nat) : Int))) ∈ st.base) ∧
  (∀ x ∈ st.unfinished, x ∈ sigs) ∧
  (∀ s m, m ∈ st.support s → m ∈ dom s) ∧
  (∀ s ∈ sigs, ∀ m ∈ st.support s,
    ∃ v : Nat → Bool, GoodModel sigs dom var st v ∧ v (var s m) = true)

theorem einv_init (sigs : List String) (dom : String → List String)
    (var : String → String → Nat) (base0 : List (List Int))
    (hdomcl0 : ∀ s ∈ sigs,
      ((dom s).map (fun m => ((var s m : Nat) : Int))) ∈ base0) :
    EInv sigs dom var (initState sigs base0) :=
  ⟨hdomcl0, fun _ hx => hx,
   fun _ m hm => absurd hm (List.not_mem_nil m),
   fun _ _ m hm => absurd hm (List.not_mem_nil m)⟩

theorem good_preserved {sigs : List String} {dom : String → List String}
    {var : String → String → Nat} {mvars : List Nat} {st st' : EState}
    {v : Nat → Bool}
    (hposv : ∀ s ∈ sigs, ∀ m ∈ dom s, 1 ≤ var s m)
    (hdomcl : ∀ s ∈ sigs,
      ((dom s).map (fun m => ((var s m : Nat) : Int))) ∈ st.base)
    (hfin : ∀ x ∈ st.unfinished, x ∈ sigs)
    (h : EStep dom var mvars st st')
    (hg : GoodModel sigs dom var st v) :
    GoodModel sigs dom var st' v := by
  cases h with
  | sat focus w hfoc hsat hne =>
    refine ⟨hg.1, ?_⟩
    intro u hu m hm hv
    exact List.mem_append_left _ (hg.2 u hu m hm hv)
  | unsat focus hfoc hun =>
    refine ⟨?_, hg.2⟩
    rw [satList_append]
    refine ⟨hg.1, ?_⟩
    intro c hc
    rw [List.mem_singleton] at hc
    subst hc
    have hfs : focus ∈ sigs := hfin focus hfoc
    have hdc := hg.1 _ (hdomcl focus hfs)
    simp only [clauseHolds, List.any_eq_true] at hdc ⊢
    obtain ⟨l, hl, hlt⟩ := hdc
    rw [List.mem_map] at hl
    obtain ⟨m, hmdom, rfl⟩ := hl
    have hp := hposv focus hfs m hmdom
    have hvm : v (var focus m) = true := by
      unfold litHolds at hlt
      rw [if_pos (by omega)] at hlt
      simpa using hlt
    have hms : m ∈ st.support focus := hg.2 focus hfs m hmdom hvm
    refine ⟨((var focus m : Nat) : Int), List.mem_map_of_mem _ hms, ?_⟩
    unfold litHolds
    rw [if_pos (by omega)]
    simpa using hvm

theorem einv_step {sigs : List String} {dom : String → List String}
    {var : String → String → Nat} {mvars : List Nat} {st st' : EState}
    (hposv : ∀ s ∈ sigs, ∀ m ∈ dom s, 1 ≤ var s m)
    (h : EStep dom var mvars st st') (hi : EInv sigs dom var st) :
    EInv sigs dom var st' := by
  refine ⟨fun s hs => (estep_base_sublist h).subset (hi.1 s hs),
    fun x hx => hi.2.1 x (estep_unfinished_sub h hx), ?_, ?_⟩
  · cases h with
    | sat focus w hfoc hsat hne =>
      intro s m hm
      simp only [updSupport, List.mem_append, List.mem_filter] at hm
      rcases hm with h1 | h1
      · exact hi.2.2.1 s m h1
      · exact h1.1
    | unsat => exact hi.2.2.1
  · cases h with
    | sat focus w hfoc hsat hne =>
      intro s hs m hm
      simp only [updSupport, List.mem_append, List.mem_filter] at hm
      rcases hm with h1 | h1
      · obtain ⟨v2, hg2, hv2⟩ := hi.2.2.2 s hs m h1
        exact ⟨v2, good_preserved hposv hi.1 hi.2.1
          (EStep.sat st focus w hfoc hsat hne) hg2, hv2⟩
      · have hw : w (var s m) = true := by
          have h2 := h1.2
          rw [Bool.and_eq_true] at h2
          exact h2.1
        refine ⟨w, ⟨?_, ?_⟩, hw⟩
        · exact (satList_append w st.base _).1 hsat |>.1
        · intro u hu m2 hm2 hv2
          simp only [updSupport, List.mem_append, List.mem_filter]
          by_cases hc : m2 ∈ st.support u
          · exact Or.inl hc
          · refine Or.inr ⟨hm2, ?_⟩
            rw [hv2]
            simp [hc]
    | unsat focus hfoc hun =>
      intro s hs m hm
      obtain ⟨v2, hg2, hv2⟩ := hi.2.2.2 s hs m hm
      exact ⟨v2, good_preserved hposv hi.1 hi.2.1
        (EStep.unsat st focus hfoc hun) hg2, hv2⟩

theorem einv_reach {sigs : List String} {dom : String → List String}
    {var : String → String → Nat} {mvars : List Nat} {st st' : EState}
    (hposv : ∀ s ∈ sigs, ∀ m ∈ dom s, 1 ≤ var s m)
    (h : EReach dom var mvars st st') (hi : EInv sigs dom var st) :
    EInv sigs dom var st' := by
  induction h with
  | refl => exact hi
  | head hs _ ih => exact ih (einv_step hposv hs hi)

/-- Completeness of the enumerator: a signature still unfinished in a state
reaching termination ends with every methyl some final model assigns to it
in its support set. -/
theorem enum_complete_aux (sigs : List String)
    (dom : String → List String) (var : String → String → Nat)
    (mvars : List Nat) (base0 : List (List Int))
    (hamo : ∀ v : Nat → Bool, satList v base0 →
      ∀ s ∈ sigs, (dom s).countP (fun m => v (var s m)) ≤ 1)
    (hmv : ∀ s ∈ sigs, ∀ m ∈ dom s, var s m ∈ mvars)
    (hposv : ∀ s ∈ sigs, ∀ m ∈ dom s, 1 ≤ var s m) :
    ∀ (st final : EState), EReach dom var mvars st final →
    EInv sigs dom var st →
    final.unfinished = [] →
    ∀ s ∈ sigs, ∀ m ∈ dom s, s ∈ st.unfinished →
    ∀ v : Nat → Bool, satList v final.base → satList v base0 →
      v (var s m) = true → m ∈ final.support s := by
  intro st final hreach
  induction hreach with
  | refl st1 =>
    intro hinv hfin s hs m hm hsu v hsatf hsat0 hv
    rw [hfin] at hsu
    exact absurd hsu (List.not_mem_nil s)
  | @head s1 s2 s3 hstep htail ih =>
    intro hinv hfin s hs m hm hsu v hsatf hsat0 hv
    have hinv2 := einv_step hposv hstep hinv
    cases hstep with
    | sat focus w hfoc hsat hne =>
      exact ih hinv2 hfin s hs m hm hsu v hsatf hsat0 hv
    | unsat focus hfoc hun =>
      by_cases hsf : s = focus
      · subst hsf
        by_cases hms : m ∈ s1.support s
        · exact ereach_support_sub htail s hms
        · exfalso
          have hbase : s1.base.Sublist s3.base :=
            List.Sublist.trans (List.sublist_append_left _ _)
              (ereach_base_sublist htail)
          have hsatb : satList v s1.base := satList_of_sublist hbase hsatf
          have hsataux : satList v (auxOf var s (s1.support s)) := by
            intro c hc
            unfold auxOf at hc
            rw [List.mem_map] at hc
            obtain ⟨seen, hseen, rfl⟩ := hc
            have hseendom : seen ∈ dom s := hinv.2.2.1 s seen hseen
            have hne2 : m ≠ seen := fun hc2 => hms (hc2 ▸ hseen)
            have hfalse : v (var s seen) = false := by
              by_contra hcc
              rw [Bool.not_eq_false] at hcc
              have h2 := two_le_countP (p := fun m2 => v (var s m2))
                hm hseendom hne2 hv hcc
              have h1 := hamo v hsat0 s hs
              omega
            have hp := hposv s hs seen hseendom
            simp only [clauseHolds, List.any_cons, List.any_nil,
              Bool.or_false]
            unfold litHolds
            rw [if_neg (by omega)]
            have hn : (-(-((var s seen : Nat) : Int))).toNat = var s seen := by
              omega
            rw [hn, hfalse]
            rfl
          have hcomb : satList v
              (s1.base ++ auxOf var s (s1.support s)) := by
            rw [satList_append]
            exact ⟨hsatb, hsataux⟩
          have hall := hun v hcomb
          rw [List.any_eq_false] at hall
          exact absurd hv (by simpa using hall _ (hmv s hs m hm))
      · refine ih hinv2 hfin s hs m hm ?_ v hsatf hsat0 hv
        exact (List.mem_erase_of_ne hsf).2 hsu

/-- **C3.** Modelling the SAT backend as an oracle (a SAT answer carries a
model, an UNSAT answer — or a model with no true meaning-carrying
variable, which Python's falsy check treats identically — carries its
refutation), when the enumeration loop terminates, a methyl is in a
signature's support set if and only if some satisfying assignment of the
post-enumeration clause set (locking clauses included) makes that
assignment variable true.  The hypotheses state what `inject_vertices`
guarantees of the initial clauses: each signature's domain clause is
present, models set at most one assignment variable per signature, and the
variables are positive and meaning-carrying. -/
theorem claim_C3 (sigs : List String) (dom : String → List String)
    (var : String → String → Nat) (mvars : List Nat)
    (base0 : List (List Int)) (final : EState)
    (hdomcl0 : ∀ s ∈ sigs,
      ((dom s).map (fun m => ((var s m : Nat) : Int))) ∈ base0)
    (hamo : ∀ v : Nat → Bool, satList v base0 →
      ∀ s ∈ sigs, (dom s).countP (fun m => v (var s m)) ≤ 1)
    (hposv : ∀ s ∈ sigs, ∀ m ∈ dom s, 1 ≤ var s m)
    (hmv : ∀ s ∈ sigs, ∀ m ∈ dom s, var s m ∈ mvars)
    (hreach : EReach dom var mvars (initState sigs base0) final)
    (hterm : final.unfinished = []) :
    ∀ s ∈ sigs, ∀ m ∈ dom s,
      (m ∈ final.support s ↔
        ∃ v : Nat → Bool, satList v final.base ∧ v (var s m) = true) := by
  intro s hs m hm
  have hinvf := einv_reach hposv hreach
    (einv_init sigs dom var base0 hdomcl0)
  constructor
  · intro hmem
    obtain ⟨v, hg, hv⟩ := hinvf.2.2.2 s hs m hmem
    exact ⟨v, hg.1, hv⟩
  · rintro ⟨v, hsatf, hv⟩
    have hsat0 : satList v base0 :=
      satList_of_sublist (ereach_base_sublist hreach) hsatf
    exact enum_complete_aux sigs dom var mvars base0 hamo hmv hposv
      (initState sigs base0) final hreach
      (einv_init sigs dom var base0 hdomcl0) hterm s hs m hm hs
      v hsatf hsat0 hv

/-- Concrete data for the C3 witness: one signature with a two-methyl
domain, variables 1 and 2, exactly-one initial clauses. -/
def sigsW3 : List String := ["s"]

def domW3 : String → List String := fun _ => ["m1", "m2"]

def varW3 : String → String → Nat := fun _ m => if m == "m1" then 1 else 2

def mvarsW3 : List Nat := [1, 2]

def base0W3 : List (List Int) := [[1, 2], [-1, -2]]

def v1W3 : Nat → Bool := fun n => n == 1

def v2W3 : Nat → Bool := fun n => n == 2

/-- The state after the first SAT answer (model 1). -/
def st1W3 : EState :=
  { base := base0W3, unfinished := ["s"],
    support := updSupport domW3 varW3 v1W3 (fun _ => []) }

/-- The state after two SAT answers (models 1 and 2). -/
def st2W3 : EState :=
  { base := base0W3, unfinished := ["s"],
    support := updSupport domW3 varW3 v2W3 st1W3.support }

/-- The terminal state: the lock clause is added and `"s"` is finished. -/
def finalW3 : EState :=
  { base := base0W3 ++ [lockClause varW3 "s" (st2W3.support "s")],
    unfinished := List.erase ["s"] "s", support := st2W3.support }

theorem ereachW3 : EReach domW3 varW3 mvarsW3
    (initState sigsW3 base0W3) finalW3 := by
  have h1 : EStep domW3 varW3 mvarsW3 (initState sigsW3 base0W3) st1W3 :=
    EStep.sat _ "s" v1W3 (by decide) (by decide) (by decide)
  have h2 : EStep domW3 varW3 mvarsW3 st1W3 st2W3 :=
    EStep.sat _ "s" v2W3 (by decide) (by decide) (by decide)
  have h3 : EStep domW3 varW3 mvarsW3 st2W3 finalW3 := by
    refine EStep.unsat st2W3 "s" (by decide) ?_
    intro v hs
    have hv1 : v 1 = false := by
      have hc := hs [-1] (by decide)
      simp only [clauseHolds, List.any_cons, List.any_nil,
        Bool.or_false, litHolds] at hc
      rw [if_neg (by omega)] at hc
      simpa using hc
    have hv2 : v 2 = false := by
      have hc := hs [-2] (by decide)
      simp only [clauseHolds, List.any_cons, List.any_nil,
        Bool.or_false, litHolds] at hc
      rw [if_neg (by omega)] at hc
      simpa using hc
    simp [mvarsW3, hv1, hv2]
  exact EReach.head h1 (EReach.head h2 (EReach.head h3
    (EReach.refl finalW3)))

set_option maxHeartbeats 1000000 in
/-- Witness for C3: on the concrete two-methyl run, both methyls end in
the support set and the equivalence holds for both of them. -/
theorem claim_C3_witness :
    finalW3.unfinished = [] ∧
    ("m1" ∈ finalW3.support "s" ↔
      ∃ v : Nat → Bool, satList v finalW3.base ∧
        v (varW3 "s" "m1") = true) ∧
    ("m2" ∈ finalW3.support "s" ↔
      ∃ v : Nat → Bool, satList v finalW3.base ∧
        v (varW3 "s" "m2") = true) := by
  have hamo : ∀ v : Nat → Bool, satList v base0W3 →
      ∀ s ∈ sigsW3, (domW3 s).countP (fun m => v (varW3 s m)) ≤ 1 := by
    intro v hs s2 _
    have hc := hs [-1, -2] (by decide)
    simp only [clauseHolds, List.any_cons, List.any_nil,
      Bool.or_false, Bool.or_eq_true, litHolds] at hc
    rw [if_neg (by omega), if_neg (by omega)] at hc
    have hc2 : v 1 = false ∨ v 2 = false := by
      rcases hc with h | h
      · exact Or.inl (by simpa using h)
      · exact Or.inr (by simpa using h)
    show List.countP _ ["m1", "m2"] ≤ 1
    rw [List.countP_cons, List.countP_cons, List.countP_nil]
    have e1 : varW3 s2 "m1" = 1 := rfl
    have e2 : varW3 s2 "m2" = 2 := rfl
    simp only [e1, e2]
    rcases hc2 with h | h <;> rw [h] <;> simp <;> split <;> omega
  have h := claim_C3 sigsW3 domW3 varW3 mvarsW3 base0W3 finalW3
    (by decide) hamo (by decide) (by decide) ereachW3 rfl
  exact ⟨rfl, h "s" (by decide) "m1" (by decide),
    h "s" (by decide) "m2" (by decide)⟩

/-! ### `Formula.solve` and `Formula.flush` (claims C5, C6) -/

/-- The two outcomes of the `subprocess.run(["cryptominisat5", ...],
timeout=15)` call inside `Formula.solve`: the solver finishes and its
output parses to a set of literals, or the 15-second wall clock expires
and `subprocess.run` raises `TimeoutExpired`. -/
inductive SolverCall where
  | finished (assignments : List Int)
  | timeout
deriving DecidableEq

/-- `self.variable_meaning[a]` as a total lookup. -/
def meaningOf (st : St) (a : Nat) : Option VarMeaning :=
  (st.variable_meaning.find? (fun e => e.1 == a)).map Prod.snd

/-- `Formula.solve` (sat.py lines 297-313).  The method only reads the
state (`to_string`, the subprocess, `get_assignments` and the final list
comprehension mutate nothing), and the `subprocess.run(..., timeout=15)`
call is wrapped in no `try`, so an expired wall clock raises
`TimeoutExpired` out of `solve`; a missing meaning raises `KeyError`
likewise. -/
def solve (st : St) (call : SolverCall) :
    St × Except String (List VarMeaning) :=
  match call with
  | SolverCall.timeout => (st, Except.error "subprocess.TimeoutExpired")
  | SolverCall.finished assignments =>
      match (assignments.filter (fun a => 0 < a)).mapM
          (fun a => meaningOf st a.toNat) with
      | some ms => (st, Except.ok ms)
      | none => (st, Except.error "KeyError")

/-- The spec's claim fails: on a timeout `solve` does not return the
empty (UNSAT-like) model — the `TimeoutExpired` exception propagates. -/
theorem claim_C5_counterexample :
    (solve St.empty SolverCall.timeout).2 ≠
      Except.ok ([] : List VarMeaning) := by
  intro h
  exact Except.noConfusion h

/-- **C5 (amended).** When the external solver exceeds the 15-second wall
clock, `Formula.solve` raises `TimeoutExpired` (no `try` catches it): the
timeout is not converted into an UNSAT answer, and no state is mutated on
the way out. -/
theorem claim_C5 (st : St) :
    solve st SolverCall.timeout =
      (st, Except.error "subprocess.TimeoutExpired") ∧
    ∀ ms : List VarMeaning,
      (solve st SolverCall.timeout).2 ≠ Except.ok ms := by
  refine ⟨rfl, ?_⟩
  intro ms h
  exact Except.noConfusion h

/-- A formula state holding one auxiliary clause. -/
def stW6 : St := add_aux_clause [1] St.empty

/-- The spec's claim fails: `solve` does not consume the auxiliary
clauses — they are untouched by the call (`flush` is a separate method the
callers invoke afterwards). -/
theorem claim_C6_counterexample :
    (solve stW6 (SolverCall.finished [])).1.aux_clauses =
      stW6.aux_clauses ∧ stW6.aux_clauses ≠ [] := by
  exact ⟨rfl, by decide⟩

/-- **C6 (amended).** `Formula.solve` mutates nothing at all — base
clauses, auxiliary clauses, variable count and meanings are returned
unchanged; it is `flush` that drops the auxiliary clauses, and `flush`
changes neither the variable count, nor any variable's meaning, nor the
base clauses. -/
theorem claim_C6 (st : St) (call : SolverCall) :
    (solve st call).1 = st ∧
    (flush st).nvars = st.nvars ∧
    (flush st).variable_meaning = st.variable_meaning ∧
    (flush st).base_clauses = st.base_clauses ∧
    (flush st).aux_clauses = [] := by
  refine ⟨?_, rfl, rfl, rfl, rfl⟩
  cases call with
  | timeout => rfl
  | finished assignments =>
    unfold solve
    repeat' split
    all_goals rfl

/-! ### `Noe.__init__` (claim C7)

The constructor is modelled as building the object's `__dict__` — the
association list of attribute names actually assigned — so that an
attribute read (`getattr`) on the result is an honest lookup. -/

/-- A Python attribute value as stored on a fresh `Noe`. -/
inductive PyVal where
  | str (s : String)
  | q (x : ℚ)
  | pyNone
  | bool (b : Bool)
  | strList (l : List String)
  | objList (l : List String)
deriving DecidableEq

/-- One CSV row after `source.dropna().to_dict()`: an absent or null
column is `none`.  The `short_range` column is carried to show that even
when present it is never read. -/
structure Row where
  label : Option String
  c2 : Option ℚ
  h2 : Option ℚ
  h1 : Option ℚ
  c1 : Option ℚ
  intensity : Option ℚ
  cluster : Option String
  reciprocals : Option String
  short_range : Option Bool
deriving DecidableEq

/-- Python `str.split()` (whitespace split, empty pieces dropped),
written as structural recursion over the character list. -/
def pySplitAux : List Char → List Char → List String
  | [], acc => if acc.isEmpty then [] else [String.mk acc.reverse]
  | c :: cs, acc =>
    if c = ' ' then
      if acc.isEmpty then pySplitAux cs []
      else String.mk acc.reverse :: pySplitAux cs []
    else pySplitAux cs (c :: acc)

/-- Python `str.split()`. -/
def pySplit (s : String) : List String :=
  pySplitAux s.toList []

/-- Python's `abs` on a float. -/
def pyAbs (x : ℚ) : ℚ := if x < 0 then -x else x

/-- Python float truthiness of an optional value (`None` and `0.0` are
falsy). -/
def truthyQ (o : Option ℚ) : Bool :=
  match o with
  | none => false
  | some x => !(x == 0)

/-- An optional float as stored on the object (`None` when absent). -/
def optVal (o : Option ℚ) : PyVal :=
  match o with
  | none => PyVal.pyNone
  | some x => PyVal.q x

/-- The `__dict__` of a `Noe` as `Noe.__init__` leaves it: the exact
attribute names assigned by noes.py lines 35-73, in assignment order. -/
def mkNoeDict (label : String) (c2 h2 : ℚ) (h1 c1 : Option ℚ)
    (intensity : ℚ) (cluster_str reciprocal_str : List String)
    (ty : String) : List (String × PyVal) :=
  [("label", PyVal.str label), ("c2", PyVal.q c2), ("h2", PyVal.q h2),
   ("h1", optVal h1), ("c1", optVal c1), ("intensity", PyVal.q intensity),
   ("cluster_str", PyVal.strList cluster_str),
   ("reciprocal_str", PyVal.strList reciprocal_str),
   ("type", PyVal.str ty), ("clusters", PyVal.objList []),
   ("reciprocals", PyVal.objList [])]

/-- `getattr` on the modelled object. -/
def pyGetattr (d : List (String × PyVal)) (a : String) : Option PyVal :=
  (d.find? (fun e => e.1 == a)).map Prod.snd

/-- `Noe.__init__` (noes.py lines 21-73).  A missing `c2`/`h2` raises
`KeyError`; a diagonal raises `Warning`; an `HCH` row without `h1` raises
`TypeError` on `self.h1 - self.h2`.  On success the returned dictionary is
`mkNoeDict ...`: no assignment to `short_range` exists anywhere in the
constructor. -/
def Noe.init (source : Row) : Except String (List (String × PyVal)) :=
  match source.c2 with
  | none => Except.error "KeyError"
  | some c2 =>
  match source.h2 with
  | none => Except.error "KeyError"
  | some h2 =>
    if truthyQ source.c1 && truthyQ source.h1 then
      if pyAbs ((source.h1.getD 0) - h2) < (1 : ℚ)/100 &&
          pyAbs ((source.c1.getD 0) - c2) < (1 : ℚ)/10 then
        Except.error "Warning"
      else
        Except.ok (mkNoeDict (source.label.getD "") c2 h2 source.h1
          source.c1 (source.intensity.getD 0)
          (pySplit (source.cluster.getD ""))
          (pySplit (source.reciprocals.getD "")) "4D")
    else if truthyQ source.c1 then
      if pyAbs ((source.c1.getD 0) - c2) < (1 : ℚ)/10 then
        Except.error "Warning"
      else
        Except.ok (mkNoeDict (source.label.getD "") c2 h2 source.h1
          source.c1 (source.intensity.getD 0)
          (pySplit (source.cluster.getD ""))
          (pySplit (source.reciprocals.getD "")) "CCH")
    else
      match source.h1 with
      | none => Except.error "TypeError"
      | some h1v =>
        if pyAbs (h1v - h2) < (1 : ℚ)/100 then
          Except.error "Warning"
        else
          Except.ok (mkNoeDict (source.label.getD "") c2 h2 source.h1
            source.c1 (source.intensity.getD 0)
            (pySplit (source.cluster.getD ""))
            (pySplit (source.reciprocals.getD "")) "HCH")

/-- No successfully constructed dictionary binds `short_range`. -/
theorem mkNoeDict_no_short (label : String) (c2 h2 : ℚ) (h1 c1 : Option ℚ)
    (intensity : ℚ) (cs rs : List String) (ty : String) :
    pyGetattr (mkNoeDict label c2 h2 h1 c1 intensity cs rs ty)
      "short_range" = none := rfl

/-- **C7 (code bug).** Every `Noe` that `Noe.__init__` successfully
constructs — from any row, even one whose `short_range` column is
present — has no `short_range` attribute at all: the constructor never
assigns it, so the reads `i.short_range` (sat.py line 557) and
`component.nodes()[0].short_range` (ground.py line 30) raise
`AttributeError` instead of finding the spec's promised truthy-or-default
value. -/
theorem claim_C7 (source : Row) (d : List (String × PyVal))
    (h : Noe.init source = Except.ok d) :
    pyGetattr d "short_range" = none ∧
    pyGetattr d "label" ≠ none ∧ pyGetattr d "type" ≠ none := by
  unfold Noe.init at h
  repeat' split at h
  all_goals cases h
  all_goals exact ⟨rfl, fun hc => Option.noConfusion hc,
    fun hc => Option.noConfusion hc⟩

instance {ε α : Type u} [DecidableEq ε] [DecidableEq α] :
    DecidableEq (Except ε α) := fun a b =>
  match a, b with
  | Except.ok x, Except.ok y =>
      if h : x = y then isTrue (by rw [h])
      else isFalse (fun hc => h (Except.ok.inj hc))
  | Except.error x, Except.error y =>
      if h : x = y then isTrue (by rw [h])
      else isFalse (fun hc => h (Except.error.inj hc))
  | Except.ok _, Except.error _ => isFalse (fun hc => Except.noConfusion hc)
  | Except.error _, Except.ok _ => isFalse (fun hc => Except.noConfusion hc)

/-- A well-formed CCH row carrying a `short_range` column. -/
def rowW7 : Row :=
  { label := some "p1", c2 := some 18, h2 := some 1, h1 := none,
    c1 := some 21, intensity := none, cluster := none,
    reciprocals := none, short_range := some true }

theorem pySplit_empty : pySplit "" = [] := by decide

/-- The concrete row evaluates to a successful construction. -/
theorem noeInit_rowW7 : Noe.init rowW7 =
    Except.ok (mkNoeDict "p1" 18 1 none (some 21) 0 [] [] "CCH") := by
  unfold Noe.init
  norm_num [rowW7, truthyQ, pyAbs, pySplit_empty]

/-- Witness for C7: the concrete row constructs successfully and the
resulting object has no `short_range` attribute bound. -/
theorem claim_C7_witness :
    Noe.init rowW7 = Except.ok (mkNoeDict "p1" 18 1 none (some 21) 0 []
      [] "CCH") ∧
    pyGetattr (mkNoeDict "p1" 18 1 none (some 21) 0 [] [] "CCH")
      "short_range" = none := by
  refine ⟨noeInit_rowW7, ?_⟩
  exact (claim_C7 rowW7 (mkNoeDict "p1" 18 1 none (some 21) 0 [] [] "CCH")
    noeInit_rowW7).1

/-! ### `SymGraph` (claims C9 and C10) and `SignatureGraph` (claim C8)

A `networkx` graph with the edge attributes the code uses: nodes are NOE
labels, every edge carries its `active` and `dead` flags. -/

/-- One `SymGraph` edge with its attribute dictionary's two flags. -/
structure SEdge where
  a : String
  b : String
  active : Bool
  dead : Bool
deriving DecidableEq

/-- The symmetrization graph. -/
structure SGraph where
  nodes : List String
  edges : List SEdge
deriving DecidableEq

/-- Whether a stored edge is the (undirected) edge between `i` and `j`. -/
def edgeMatches (e : SEdge) (i j : String) : Bool :=
  (e.a == i && e.b == j) || (e.a == j && e.b == i)

/-- `networkx.Graph.has_edge`. -/
def has_edge (g : SGraph) (i j : String) : Bool :=
  g.edges.any (fun e => edgeMatches e i j)

/-- `SymGraph.activate` (network.py lines 97-107): set the `active` flag,
or raise `ValueError` when the edge is absent. -/
def activate (g : SGraph) (i j : String) : Except String SGraph :=
  if has_edge g i j then
    Except.ok { g with edges := g.edges.map (fun e =>
      if edgeMatches e i j then { e with active := true } else e) }
  else Except.error "ValueError"

/-- `SymGraph.deactivate` (network.py lines 109-119). -/
def deactivate (g : SGraph) (i j : String) : Except String SGraph :=
  if has_edge g i j then
    Except.ok { g with edges := g.edges.map (fun e =>
      if edgeMatches e i j then { e with active := false } else e) }
  else Except.error "ValueError"

/-- `SymGraph.kill` (network.py lines 121-131): set the `dead` flag. -/
def kill (g : SGraph) (i j : String) : Except String SGraph :=
  if has_edge g i j then
    Except.ok { g with edges := g.edges.map (fun e =>
      if edgeMatches e i j then { e with dead := true } else e) }
  else Except.error "ValueError"

/-- `networkx.Graph.remove_edges_from` on a copy. -/
def remove_edges_from (g : SGraph) (pairs : List (String × String)) :
    SGraph :=
  { g with edges := g.edges.filter (fun e =>
      !(pairs.any (fun p => edgeMatches e p.1 p.2))) }

/-- `SymGraph.living_graph` (network.py lines 133-146): a copy of the
graph with the dead edges removed — and nothing else removed. -/
def living_graph (g : SGraph) : SGraph :=
  remove_edges_from g ((g.edges.filter (fun e => e.dead)).map
    (fun e => (e.a, e.b)))

/-- One component's pass of `SymGraph.set_activity_level`: the edges of a
connected component of the living graph (living edges with both endpoints
in the component) get their `active` flag set to whether the component is
small enough. -/
def slFun (max_size : Nat) (comp : List String) (e : SEdge) : SEdge :=
  if !e.dead && decide (e.a ∈ comp) && decide (e.b ∈ comp)
  then { e with active := decide (comp.length ≤ max_size) }
  else e

def slStep (max_size : Nat) (g2 : SGraph) (comp : List String) : SGraph :=
  { g2 with edges := g2.edges.map (slFun max_size comp) }

/-- `SymGraph.set_activity_level` (network.py lines 184-204), given the
node sets of the living graph's connected components as `networkx`
computes them. -/
def set_activity_level (g : SGraph) (comps : List (List String))
    (max_size : Nat) : SGraph :=
  comps.foldl (slStep max_size) g

/-- A public mutation of a `SymGraph`. -/
inductive SOp where
  | act (i j : String)
  | deact (i j : String)
  | kil (i j : String)
  | setLevel (comps : List (List String)) (max_size : Nat)
deriving DecidableEq

/-- Run one operation; a raised `ValueError` leaves the graph as it was
at the moment of the raise. -/
def applyOp (g : SGraph) (op : SOp) : SGraph :=
  match op with
  | SOp.act i j =>
    match activate g i j with
    | Except.ok g2 => g2
    | Except.error _ => g
  | SOp.deact i j =>
    match deactivate g i j with
    | Except.ok g2 => g2
    | Except.error _ => g
  | SOp.kil i j =>
    match kill g i j with
    | Except.ok g2 => g2
    | Except.error _ => g
  | SOp.setLevel comps m => set_activity_level g comps m

/-- Run a sequence of operations. -/
def applyOps (g : SGraph) (ops : List SOp) : SGraph :=
  ops.foldl applyOp g

/-- `set_activity_level` maps the edge list pointwise and leaves every
dead edge entirely unchanged (dead edges belong to no living
component). -/
theorem setLevel_dead_frame (m : Nat) :
    ∀ (comps : List (List String)) (g : SGraph),
    ∃ f : SEdge → SEdge,
      (set_activity_level g comps m).edges = g.edges.map f ∧
      ∀ e : SEdge, e.dead = true → f e = e := by
  intro comps
  induction comps with
  | nil =>
    intro g
    exact ⟨id, (List.map_id _).symm, fun e _ => rfl⟩
  | cons c cs ih =>
    intro g
    obtain ⟨f, hf, hdead⟩ := ih (slStep m g c)
    refine ⟨f ∘ slFun m c, ?_, ?_⟩
    · show (set_activity_level (slStep m g c) cs m).edges = _
      rw [hf]
      show (g.edges.map (slFun m c)).map f = _
      rw [List.map_map]
    · intro e he
      have hstep : slFun m c e = e := by
        unfold slFun
        rw [he]
        rfl
      show f (slFun m c e) = e
      rw [hstep]
      exact hdead e he

/-- Every operation maps the edge list pointwise preserving the `dead`
flag once set. -/
theorem applyOp_dead (g : SGraph) (op : SOp) :
    ∃ f : SEdge → SEdge, (applyOp g op).edges = g.edges.map f ∧
      ∀ e : SEdge, e.dead = true → (f e).dead = true := by
  cases op with
  | act i j =>
    simp only [applyOp]
    unfold activate
    by_cases h : has_edge g i j = true
    · rw [if_pos h]
      refine ⟨_, rfl, ?_⟩
      intro e he
      split
      · exact he
      · exact he
    · rw [if_neg h]
      exact ⟨id, (List.map_id _).symm, fun e he => he⟩
  | deact i j =>
    simp only [applyOp]
    unfold deactivate
    by_cases h : has_edge g i j = true
    · rw [if_pos h]
      refine ⟨_, rfl, ?_⟩
      intro e he
      split
      · exact he
      · exact he
    · rw [if_neg h]
      exact ⟨id, (List.map_id _).symm, fun e he => he⟩
  | kil i j =>
    simp only [applyOp]
    unfold kill
    by_cases h : has_edge g i j = true
    · rw [if_pos h]
      refine ⟨_, rfl, ?_⟩
      intro e he
      split
      · rfl
      · exact he
    · rw [if_neg h]
      exact ⟨id, (List.map_id _).symm, fun e he => he⟩
  | setLevel comps m =>
    obtain ⟨f, hf, hdead⟩ := setLevel_dead_frame m comps g
    exact ⟨f, hf, fun e he => by rw [hdead e he]; exact he⟩

theorem get_congr {l1 l2 : List α} (h : l1 = l2) (k : Nat)
    (h1 : k < l1.length) (h2 : k < l2.length) :
    l1.get ⟨k, h1⟩ = l2.get ⟨k, h2⟩ := by
  subst h
  rfl

theorem get_map_eq (f : α → β) (l : List α) (k : Nat)
    (hk : k < l.length) (hk2 : k < (l.map f).length) :
    (l.map f).get ⟨k, hk2⟩ = f (l.get ⟨k, hk⟩) := by
  simp

/-- Dead edges stay dead through any operation sequence. -/
theorem applyOps_dead (ops : List SOp) :
    ∀ (g : SGraph) (k : Nat) (hk : k < g.edges.length),
    (g.edges.get ⟨k, hk⟩).dead = true →
    ∃ hk2 : k < (applyOps g ops).edges.length,
      ((applyOps g ops).edges.get ⟨k, hk2⟩).dead = true := by
  induction ops with
  | nil =>
    intro g k hk hd
    exact ⟨hk, hd⟩
  | cons op ops ih =>
    intro g k hk hd
    obtain ⟨f, hf, hdead⟩ := applyOp_dead g op
    have hk1 : k < (applyOp g op).edges.length := by
      rw [hf, List.length_map]
      exact hk
    have hd1 : ((applyOp g op).edges.get ⟨k, hk1⟩).dead = true := by
      have hg : (applyOp g op).edges.get ⟨k, hk1⟩ =
          f (g.edges.get ⟨k, hk⟩) := by
        have hk3 : k < (g.edges.map f).length := by
          rw [List.length_map]
          exact hk
        calc (applyOp g op).edges.get ⟨k, hk1⟩
            = (g.edges.map f).get ⟨k, hk3⟩ := get_congr hf k hk1 hk3
          _ = f (g.edges.get ⟨k, hk⟩) := get_map_eq f g.edges k hk hk3
      rw [hg]
      exact hdead _ hd
    exact ih (applyOp g op) k hk1 hd1

/-- **C10.** Dead edges never become live again: over any sequence of the
public operations (`activate`, `deactivate`, `kill`,
`set_activity_level`) an edge whose `dead` flag is set keeps it — no
operation writes `dead=False` — and `set_activity_level` leaves a dead
edge entirely unchanged (it only toggles `active` flags of living
edges). -/
theorem claim_C10 :
    (∀ (g : SGraph) (ops : List SOp) (k : Nat)
      (hk : k < g.edges.length),
      (g.edges.get ⟨k, hk⟩).dead = true →
      ∃ hk2 : k < (applyOps g ops).edges.length,
        ((applyOps g ops).edges.get ⟨k, hk2⟩).dead = true) ∧
    (∀ (g : SGraph) (comps : List (List String)) (m : Nat) (k : Nat)
      (hk : k < g.edges.length),
      (g.edges.get ⟨k, hk⟩).dead = true →
      ∃ hk2 : k < (set_activity_level g comps m).edges.length,
        (set_activity_level g comps m).edges.get ⟨k, hk2⟩ =
          g.edges.get ⟨k, hk⟩) := by
  refine ⟨fun g ops => applyOps_dead ops g, ?_⟩
  intro g comps m k hk hd
  obtain ⟨f, hf, hdead⟩ := setLevel_dead_frame m comps g
  have hk3 : k < (g.edges.map f).length := by
    rw [List.length_map]
    exact hk
  have hk2 : k < (set_activity_level g comps m).edges.length := by
    rw [hf, List.length_map]
    exact hk
  refine ⟨hk2, ?_⟩
  calc (set_activity_level g comps m).edges.get ⟨k, hk2⟩
      = (g.edges.map f).get ⟨k, hk3⟩ := get_congr hf k hk2 hk3
    _ = f (g.edges.get ⟨k, hk⟩) := get_map_eq f g.edges k hk hk3
    _ = g.edges.get ⟨k, hk⟩ := hdead _ hd

/-- A graph with one dead edge. -/
def gW10 : SGraph :=
  { nodes := ["x", "y"],
    edges := [{ a := "x", b := "y", active := false, dead := true }] }

/-- A sequence exercising every operation kind. -/
def opsW10 : List SOp :=
  [SOp.act "x" "y", SOp.setLevel [["x", "y"]] 3, SOp.deact "x" "y"]

/-- Witness for C10: the dead edge of the concrete graph stays dead
through the sequence, and `set_activity_level` leaves it unchanged. -/
theorem claim_C10_witness :
    ((gW10.edges.get ⟨0, by decide⟩).dead = true) ∧
    (∃ hk2 : 0 < (applyOps gW10 opsW10).edges.length,
      ((applyOps gW10 opsW10).edges.get ⟨0, hk2⟩).dead = true) ∧
    (∃ hk2 : 0 < (set_activity_level gW10 [["x", "y"]] 3).edges.length,
      (set_activity_level gW10 [["x", "y"]] 3).edges.get ⟨0, hk2⟩ =
        gW10.edges.get ⟨0, by decide⟩) :=
  ⟨by decide, claim_C10.1 gW10 opsW10 0 (by decide) (by decide),
   claim_C10.2 gW10 [["x", "y"]] 3 0 (by decide) (by decide)⟩

/-- Two stored edges describe the same unordered pair of node labels. -/
def sameEPair (e1 e2 : SEdge) : Prop :=
  (e1.a = e2.a ∧ e1.b = e2.b) ∨ (e1.a = e2.b ∧ e1.b = e2.a)

instance (e1 e2 : SEdge) : Decidable (sameEPair e1 e2) := by
  unfold sameEPair
  infer_instance

theorem sameEPair_symm {e1 e2 : SEdge} (h : sameEPair e1 e2) :
    sameEPair e2 e1 := by
  rcases h with ⟨h1, h2⟩ | ⟨h1, h2⟩
  · exact Or.inl ⟨h1.symm, h2.symm⟩
  · exact Or.inr ⟨h2.symm, h1.symm⟩

theorem pairwise_nsep_forall {l : List SEdge}
    (h : List.Pairwise (fun a b => ¬ sameEPair a b) l) {a b : SEdge}
    (ha : a ∈ l) (hb : b ∈ l) (hne : a ≠ b) : ¬ sameEPair a b := by
  have hsym : Symmetric (fun a b : SEdge => ¬ sameEPair a b) :=
    fun x y hxy hs => hxy (sameEPair_symm hs)
  exact List.Pairwise.forall hsym h ha hb hne

theorem edgeMatches_self (e : SEdge) : edgeMatches e e.a e.b = true := by
  simp [edgeMatches]

theorem edgeMatches_iff (e1 e2 : SEdge) :
    edgeMatches e1 e2.a e2.b = true ↔ sameEPair e1 e2 := by
  simp [edgeMatches, sameEPair]

/-- A graph whose only (dead) edge leaves both endpoints isolated in the
living graph. -/
def gW9 : SGraph :=
  { nodes := ["x", "y"],
    edges := [{ a := "x", b := "y", active := false, dead := true }] }

/-- The spec's claim fails: `living_graph` does not drop the isolated
endpoints of dead edges — it removes edges only, so the node set is
unchanged and non-empty although no living edge remains. -/
theorem claim_C9_counterexample :
    (living_graph gW9).edges = [] ∧
    (living_graph gW9).nodes = gW9.nodes ∧ gW9.nodes ≠ [] := by decide

/-- **C9 (amended).** For a graph without parallel edges,
`SymGraph.living_graph` keeps the node set unchanged (isolated vertices
and all) and keeps exactly the edges whose `dead` flag is false. -/
theorem claim_C9 (g : SGraph)
    (hpair : List.Pairwise (fun e1 e2 => ¬ sameEPair e1 e2) g.edges) :
    (living_graph g).nodes = g.nodes ∧
    ∀ e ∈ g.edges, (e ∈ (living_graph g).edges ↔ e.dead = false) := by
  refine ⟨rfl, ?_⟩
  intro e he
  unfold living_graph remove_edges_from
  simp only [List.mem_filter]
  constructor
  · rintro ⟨_, hcond⟩
    by_contra hdead
    rw [Bool.not_eq_false] at hdead
    have hany : ((g.edges.filter (fun e2 => e2.dead)).map
        (fun e2 => (e2.a, e2.b))).any
          (fun p => edgeMatches e p.1 p.2) = true := by
      rw [List.any_eq_true]
      exact ⟨(e.a, e.b),
        List.mem_map_of_mem _ (List.mem_filter.2 ⟨he, hdead⟩),
        edgeMatches_self e⟩
    rw [hany] at hcond
    cases hcond
  · intro hdead
    refine ⟨he, ?_⟩
    have hany : ((g.edges.filter (fun e2 => e2.dead)).map
        (fun e2 => (e2.a, e2.b))).any
          (fun p => edgeMatches e p.1 p.2) = false := by
      rw [List.any_eq_false]
      intro p hp
      rw [List.mem_map] at hp
      obtain ⟨e2, he2, rfl⟩ := hp
      rw [List.mem_filter] at he2
      intro hmatch
      have hsp : sameEPair e e2 := (edgeMatches_iff e e2).1 hmatch
      have hne : e ≠ e2 := by
        intro hc
        rw [hc] at hdead
        rw [he2.2] at hdead
        cases hdead
      exact pairwise_nsep_forall hpair he he2.1 hne hsp
    rw [hany]
    rfl

/-- A graph with one dead and one living edge. -/
def gW9b : SGraph :=
  { nodes := ["x", "y", "z"],
    edges := [{ a := "x", b := "y", active := false, dead := true },
              { a := "y", b := "z", active := false, dead := false }] }

/-- Witness for C9: on the concrete graph the amended characterisation
holds. -/
theorem claim_C9_witness :
    List.Pairwise (fun e1 e2 => ¬ sameEPair e1 e2) gW9b.edges ∧
    ((living_graph gW9b).nodes = gW9b.nodes ∧
      ∀ e ∈ gW9b.edges,
        (e ∈ (living_graph gW9b).edges ↔ e.dead = false)) :=
  ⟨by decide, claim_C9 gW9b (by decide)⟩

/-! ### `SignatureGraph.__init__` (claim C8) -/

/-- A `SignatureGraph` edge between two signature labels with its
`networkx` attribute dictionary. -/
structure GEdge where
  a : String
  b : String
  attrs : List (String × PyVal)
deriving DecidableEq

/-- Whether a stored edge is the (undirected) edge between `i` and `j`. -/
def gMatches (e : GEdge) (i j : String) : Bool :=
  (e.a == i && e.b == j) || (e.a == j && e.b == i)

/-- Python dict assignment (replace if present, else append). -/
def pyDictSet (d : List (String × PyVal)) (k : String) (v : PyVal) :
    List (String × PyVal) :=
  if d.any (fun kv => kv.1 == k)
  then d.map (fun kv => if kv.1 == k then (kv.1, v) else kv)
  else d ++ [(k, v)]

/-- `networkx.Graph.add_edge(i, j, key=value)`: on an existing edge the
attribute dictionary is updated, otherwise a fresh edge carries just this
attribute. -/
def add_edge (es : List GEdge) (i j : String) (k : String) (v : PyVal) :
    List GEdge :=
  if es.any (fun e => gMatches e i j)
  then es.map (fun e =>
    if gMatches e i j then { e with attrs := pyDictSet e.attrs k v }
    else e)
  else es ++ [{ a := i, b := j, attrs := [(k, v)] }]

/-- `networkx` degree of a node in the (living) symmetrization graph. -/
def lDegree (g : SGraph) (x : String) : Nat :=
  g.edges.countP (fun e => e.a == x || e.b == x)

/-- `SignatureGraph.__init__` (network.py lines 23-52): given the living
symmetrization graph, add an edge between `clustering(i)` and
`clustering(j)` with `geminal=False` for every living edge `(i, j)` whose
endpoints both have degree one, then an edge with `geminal=True` for each
geminal pair of signatures.  No other attribute — in particular no
`short` — is ever attached. -/
def SignatureGraph_init (sigs : List String) (living : SGraph)
    (clustering : String → String) (gem : String → String → Bool) :
    List GEdge :=
  (pairsOf sigs).foldl (fun es p =>
    if gem p.1 p.2 then add_edge es p.1 p.2 "geminal" (PyVal.bool true)
    else es)
    ((living.edges.filter (fun e =>
        lDegree living e.a == 1 && lDegree living e.b == 1)).foldl
      (fun es e => add_edge es (clustering e.a) (clustering e.b)
        "geminal" (PyVal.bool false)) [])

/-- The invariant of the construction: every attribute dictionary is the
single binding of `geminal`. -/
def onlyGem (es : List GEdge) : Prop :=
  ∀ e ∈ es, e.attrs = [("geminal", PyVal.bool false)] ∨
    e.attrs = [("geminal", PyVal.bool true)]

theorem add_edge_onlyGem (es : List GEdge) (i j : String) (b : Bool)
    (h : onlyGem es) :
    onlyGem (add_edge es i j "geminal" (PyVal.bool b)) := by
  unfold add_edge
  split
  · intro e he
    rw [List.mem_map] at he
    obtain ⟨e2, he2, rfl⟩ := he
    split
    · rcases h e2 he2 with h2 | h2 <;> rw [h2] <;> cases b
      · exact Or.inl rfl
      · exact Or.inr rfl
      · exact Or.inl rfl
      · exact Or.inr rfl
    · exact h e2 he2
  · intro e he
    rw [List.mem_append] at he
    rcases he with h1 | h1
    · exact h e h1
    · rw [List.mem_singleton] at h1
      subst h1
      cases b
      · exact Or.inl rfl
      · exact Or.inr rfl

theorem foldl_onlyGem {α : Type u} (step : List GEdge → α → List GEdge)
    (hstep : ∀ es x, onlyGem es → onlyGem (step es x)) :
    ∀ (l : List α) (es : List GEdge), onlyGem es →
    onlyGem (l.foldl step es) := by
  intro l
  induction l with
  | nil => exact fun es h => h
  | cons x l ih => exact fun es h => ih _ (hstep es x h)

/-- **C8 (code bug).** Every edge any `SignatureGraph` construction
produces carries exactly the `geminal` attribute: the `short` attribute
the spec promises (the OR of the endpoint NOEs' `short_range` flags) is
never set, so the read `graph_h[i][j]["short"]` in
`IsomorphismCSP.distance_constraints` (sat.py line 877) raises
`KeyError`. -/
theorem claim_C8 (sigs : List String) (living : SGraph)
    (clustering : String → String) (gem : String → String → Bool) :
    ∀ e ∈ SignatureGraph_init sigs living clustering gem,
      (e.attrs.find? (fun kv => kv.1 == "short")).map Prod.snd = none ∧
      ∃ b : Bool, (e.attrs.find? (fun kv => kv.1 == "geminal")).map
        Prod.snd = some (PyVal.bool b) := by
  have hg : onlyGem (SignatureGraph_init sigs living clustering gem) := by
    unfold SignatureGraph_init
    apply foldl_onlyGem
    · intro es p hes
      dsimp only
      split
      · exact add_edge_onlyGem es p.1 p.2 true hes
      · exact hes
    · apply foldl_onlyGem
      · intro es e hes
        exact add_edge_onlyGem es _ _ false hes
      · intro e he
        exact absurd he (List.not_mem_nil e)
  intro e he
  rcases hg e he with h | h <;> rw [h]
  · exact ⟨rfl, false, rfl⟩
  · exact ⟨rfl, true, rfl⟩

/-- The living symmetrization graph for the C8 witness: one living
two-node component. -/
def livingW8 : SGraph :=
  { nodes := ["n1", "n2"],
    edges := [{ a := "n1", b := "n2", active := true, dead := false }] }

/-- The expected constructed edge. -/
def gEdgeW8 : GEdge :=
  { a := "A", b := "B", attrs := [("geminal", PyVal.bool false)] }

/-- Witness for C8: the concrete construction yields the edge `A - B`
with only the `geminal` attribute and no `short` attribute. -/
theorem claim_C8_witness :
    gEdgeW8 ∈ SignatureGraph_init ["A", "B"] livingW8
      (fun n => if n == "n1" then "A" else "B") (fun _ _ => false) ∧
    ((gEdgeW8.attrs.find? (fun kv => kv.1 == "short")).map
      Prod.snd = none ∧
     ∃ b : Bool, (gEdgeW8.attrs.find? (fun kv => kv.1 == "geminal")).map
      Prod.snd = some (PyVal.bool b)) :=
  ⟨by decide, claim_C8 ["A", "B"] livingW8
    (fun n => if n == "n1" then "A" else "B") (fun _ _ => false)
    gEdgeW8 (by decide)⟩

end Camera
